import Mathlib

/-!
Verification development for the `dnssteal` reassembly engine
(`src/main.rs`).  The Rust code is shallowly embedded: Rust `String`s
and `&[u8]` label data are modelled as `List Nat` byte lists (a Rust
`String` is a byte vector with a UTF-8 validity invariant), `BTreeMap`s
as key-sorted association lists, and `Instant` timestamps as natural
numbers counting milliseconds.  Fallible Rust code returns explicit
result types; a Rust panic (assertion failure, `todo!`, out-of-bounds
index, `unwrap`) is a distinguished `panic` outcome.
-/

namespace Dnssteal

/-- Raw bytes (each entry is intended to lie below 256). -/
abbrev Bytes := List Nat

/-! ## UTF-8 validation and lossy decoding

`String::from_utf8` succeeds exactly on valid UTF-8 and keeps the bytes
unchanged, so it is modelled by a validity check.  `String::from_utf8_lossy`
replaces each maximal invalid subpart with U+FFFD (bytes `EF BF BD`),
per the WHATWG policy used by the Rust standard library. -/

/-- Is `b` a UTF-8 continuation byte (`0x80..=0xBF`)? -/
def contB (b : Nat) : Bool := 128 ≤ b && b < 192

/-- Allowed range of the first continuation byte, which depends on the
lead byte (excludes overlong forms, surrogates and values above
`0x10FFFF`). -/
def cont1Ok (lead c1 : Nat) : Bool :=
  if lead = 224 then 160 ≤ c1 && c1 < 192
  else if lead = 237 then 128 ≤ c1 && c1 < 160
  else if lead = 240 then 144 ≤ c1 && c1 < 192
  else if lead = 244 then 128 ≤ c1 && c1 < 144
  else contB c1

/-- If the byte list beginning with lead byte `b` followed by `rest`
starts with a well-formed UTF-8 scalar, return the number of
continuation bytes (0–3) it uses from `rest`. -/
def headCharLen (b : Nat) (rest : List Nat) : Option Nat :=
  if b < 128 then some 0
  else if 194 ≤ b && b ≤ 223 then
    match rest with
    | c1 :: _ => if contB c1 then some 1 else none
    | _ => none
  else if 224 ≤ b && b ≤ 239 then
    match rest with
    | c1 :: c2 :: _ => if cont1Ok b c1 && contB c2 then some 2 else none
    | _ => none
  else if 240 ≤ b && b ≤ 244 then
    match rest with
    | c1 :: c2 :: c3 :: _ => if cont1Ok b c1 && contB c2 && contB c3 then some 3 else none
    | _ => none
  else none

/-- On a malformed head sequence, how many bytes of `rest` belong to the
maximal valid subpart that is replaced together with the lead byte. -/
def skipLen (b : Nat) (rest : List Nat) : Nat :=
  if b < 128 then 0
  else if 194 ≤ b && b ≤ 223 then 0
  else if 224 ≤ b && b ≤ 239 then
    match rest with
    | c1 :: _ => if cont1Ok b c1 then 1 else 0
    | [] => 0
  else if 240 ≤ b && b ≤ 244 then
    match rest with
    | c1 :: c2 :: _ => if cont1Ok b c1 then (if contB c2 then 2 else 1) else 0
    | [c1] => if cont1Ok b c1 then 1 else 0
    | [] => 0
  else 0

/-- Strict UTF-8 validity of a byte list (the success condition of
`String::from_utf8`); the fuel argument only bounds recursion depth and
is immaterial once it is at least the list length. -/
def validUtf8Aux : Nat → List Nat → Bool
  | _, [] => true
  | 0, _ :: _ => false
  | fuel + 1, b :: rest =>
    match headCharLen b rest with
    | some k => validUtf8Aux fuel (rest.drop k)
    | none => false

/-- Strict UTF-8 validity of a byte list. -/
def validUtf8 (l : List Nat) : Bool := validUtf8Aux l.length l

/-- The UTF-8 encoding of U+FFFD REPLACEMENT CHARACTER. -/
def repl : Bytes := [239, 191, 189]

/-- `String::from_utf8_lossy` at the byte level: valid sequences are
copied, each maximal invalid subpart becomes `repl`. -/
def utf8LossyAux : Nat → List Nat → List Nat
  | _, [] => []
  | 0, l => l
  | fuel + 1, b :: rest =>
    match headCharLen b rest with
    | some k => b :: (rest.take k ++ utf8LossyAux fuel (rest.drop k))
    | none => repl ++ utf8LossyAux fuel (rest.drop (skipLen b rest))

/-- `String::from_utf8_lossy` at the byte level. -/
def utf8Lossy (l : List Nat) : List Nat := utf8LossyAux l.length l

/-! ## Decimal sequence numbers

`parse_name` parses the sequence-number label with
`String::from_utf8_lossy(labels[1]).parse::<u32>()`.  `str::parse::<u32>`
accepts an optional leading `'+'` followed by one or more ASCII digits,
and fails on any other character and on values not below `2^32`. -/

/-- Value of an ASCII digit byte. -/
def digitVal (b : Nat) : Option Nat :=
  if 48 ≤ b && b ≤ 57 then some (b - 48) else none

/-- Accumulate a decimal value over digit bytes; `none` on a non-digit. -/
def parseDigitsAux (acc : Nat) : Bytes → Option Nat
  | [] => some acc
  | b :: r =>
    match digitVal b with
    | some d => parseDigitsAux (acc * 10 + d) r
    | none => none

/-- `str::parse::<u32>` on a byte string. -/
def parseU32 (bs : Bytes) : Option Nat :=
  let ds := match bs with
    | 43 :: r => r
    | _ => bs
  match ds with
  | [] => none
  | _ =>
    match parseDigitsAux 0 ds with
    | some v => if v < 2 ^ 32 then some v else none
    | none => none

/-- The sequence-number label decode: lossy UTF-8 then `parse::<u32>`. -/
def parseCtr (bs : Bytes) : Option Nat := parseU32 (utf8Lossy bs)

/-- Decimal digits of `n`, most significant first, as ASCII bytes; the
fuel argument only bounds recursion depth and is immaterial once it is
at least `n`. -/
def decStrAux : Nat → Nat → Bytes
  | 0, n => [48 + n % 10]
  | fuel + 1, n => if n < 10 then [48 + n] else decStrAux fuel (n / 10) ++ [48 + n % 10]

/-- Decimal digits of `n`, most significant first, as ASCII bytes. -/
def decStr (n : Nat) : Bytes := decStrAux n n

/-! ## Base64 (standard alphabet, padded — the `base64::decode` default) -/

/-- Byte of the standard base64 alphabet for a 6-bit value. -/
def b64Char (v : Nat) : Nat :=
  if v < 26 then 65 + v
  else if v < 52 then 97 + (v - 26)
  else if v < 62 then 48 + (v - 52)
  else if v = 62 then 43
  else 47

/-- Inverse alphabet lookup. -/
def b64Val (b : Nat) : Option Nat :=
  if 65 ≤ b && b ≤ 90 then some (b - 65)
  else if 97 ≤ b && b ≤ 122 then some (26 + (b - 97))
  else if 48 ≤ b && b ≤ 57 then some (52 + (b - 48))
  else if b = 43 then some 62
  else if b = 47 then some 63
  else none

/-- Base64 encoding of a byte list (with `=` padding). -/
def b64encode : Bytes → Bytes
  | [] => []
  | [a] => [b64Char (a / 4), b64Char (a % 4 * 16), 61, 61]
  | [a, b] => [b64Char (a / 4), b64Char (a % 4 * 16 + b / 16), b64Char (b % 16 * 4), 61]
  | a :: b :: c :: rest =>
    b64Char (a / 4) :: b64Char (a % 4 * 16 + b / 16) ::
      b64Char (b % 16 * 4 + c / 64) :: b64Char (c % 64) :: b64encode rest

/-- `base64::decode` on canonical padded input: groups of four symbols,
padding only in the final group, no nonzero trailing bits. -/
def b64decode : Bytes → Option Bytes
  | [] => some []
  | c1 :: c2 :: c3 :: c4 :: rest =>
    match b64Val c1, b64Val c2 with
    | some v1, some v2 =>
      if c3 = 61 then
        if c4 = 61 && rest.isEmpty && v2 % 16 = 0 then
          some [v1 * 4 + v2 / 16]
        else none
      else
        match b64Val c3 with
        | some v3 =>
          if c4 = 61 then
            if rest.isEmpty && v3 % 4 = 0 then
              some [v1 * 4 + v2 / 16, v2 % 16 * 16 + v3 / 4]
            else none
          else
            match b64Val c4 with
            | some v4 =>
              match b64decode rest with
              | some bs => some ((v1 * 4 + v2 / 16) :: (v2 % 16 * 16 + v3 / 4) :: ((v3 % 4 * 64 + v4) :: bs))
              | none => none
            | none => none
        | none => none
    | _, _ => none
  | _ => none

/-! ## MD5 (the `md5::compute` checksum, printed `{:x}` as lowercase hex) -/

/-- 32-bit truncating addition. -/
def add32 (a b : Nat) : Nat := (a + b) % 4294967296

/-- 32-bit left rotation (operands below `2^32`). -/
def rotl32 (x s : Nat) : Nat := x % 2 ^ (32 - s) * 2 ^ s + x / 2 ^ (32 - s)

/-- 32-bit complement. -/
def not32 (x : Nat) : Nat := 4294967295 - x

/-- The 64 MD5 sine-derived round constants. -/
def md5K : List Nat :=
  [0xd76aa478, 0xe8c7b756, 0x242070db, 0xc1bdceee,
   0xf57c0faf, 0x4787c62a, 0xa8304613, 0xfd469501,
   0x698098d8, 0x8b44f7af, 0xffff5bb1, 0x895cd7be,
   0x6b901122, 0xfd987193, 0xa679438e, 0x49b40821,
   0xf61e2562, 0xc040b340, 0x265e5a51, 0xe9b6c7aa,
   0xd62f105d, 0x02441453, 0xd8a1e681, 0xe7d3fbc8,
   0x21e1cde6, 0xc33707d6, 0xf4d50d87, 0x455a14ed,
   0xa9e3e905, 0xfcefa3f8, 0x676f02d9, 0x8d2a4c8a,
   0xfffa3942, 0x8771f681, 0x6d9d6122, 0xfde5380c,
   0xa4beea44, 0x4bdecfa9, 0xf6bb4b60, 0xbebfbc70,
   0x289b7ec6, 0xeaa127fa, 0xd4ef3085, 0x04881d05,
   0xd9d4d039, 0xe6db99e5, 0x1fa27cf8, 0xc4ac5665,
   0xf4292244, 0x432aff97, 0xab9423a7, 0xfc93a039,
   0x655b59c3, 0x8f0ccc92, 0xffeff47d, 0x85845dd1,
   0x6fa87e4f, 0xfe2ce6e0, 0xa3014314, 0x4e0811a1,
   0xf7537e82, 0xbd3af235, 0x2ad7d2bb, 0xeb86d391]

/-- The 64 MD5 per-round rotation amounts. -/
def md5S : List Nat :=
  [7, 12, 17, 22, 7, 12, 17, 22, 7, 12, 17, 22, 7, 12, 17, 22,
   5, 9, 14, 20, 5, 9, 14, 20, 5, 9, 14, 20, 5, 9, 14, 20,
   4, 11, 16, 23, 4, 11, 16, 23, 4, 11, 16, 23, 4, 11, 16, 23,
   6, 10, 15, 21, 6, 10, 15, 21, 6, 10, 15, 21, 6, 10, 15, 21]

/-- Little-endian 32-bit words of a block. -/
def toWords : Bytes → List Nat
  | b0 :: b1 :: b2 :: b3 :: rest =>
    (b0 + b1 * 256 + b2 * 65536 + b3 * 16777216) :: toWords rest
  | _ => []

/-- One MD5 round step. -/
def md5Step (M : List Nat) (st : Nat × Nat × Nat × Nat) (i : Nat) : Nat × Nat × Nat × Nat :=
  let a := st.1
  let b := st.2.1
  let c := st.2.2.1
  let d := st.2.2.2
  let f :=
    if i < 16 then (b &&& c) ||| (not32 b &&& d)
    else if i < 32 then (d &&& b) ||| (not32 d &&& c)
    else if i < 48 then b ^^^ c ^^^ d
    else c ^^^ (b ||| not32 d)
  let g :=
    if i < 16 then i
    else if i < 32 then (5 * i + 1) % 16
    else if i < 48 then (3 * i + 5) % 16
    else 7 * i % 16
  let f2 := add32 (add32 (add32 f a) (md5K.getD i 0)) (M.getD g 0)
  (d, add32 b (rotl32 f2 (md5S.getD i 0)), b, c)

/-- Process one 64-byte block. -/
def md5Block (st : Nat × Nat × Nat × Nat) (block : Bytes) : Nat × Nat × Nat × Nat :=
  let M := toWords block
  let r := (List.range 64).foldl (md5Step M) st
  (add32 st.1 r.1, add32 st.2.1 r.2.1, add32 st.2.2.1 r.2.2.1, add32 st.2.2.2 r.2.2.2)

/-- Split into 64-byte blocks (fuel bounds the recursion depth and is
immaterial once it is at least the list length). -/
def chunks64Aux : Nat → Bytes → List Bytes
  | _, [] => []
  | 0, l => [l]
  | fuel + 1, bs => bs.take 64 :: chunks64Aux fuel (bs.drop 64)

/-- Split into 64-byte blocks. -/
def chunks64 (bs : Bytes) : List Bytes := chunks64Aux bs.length bs

/-- Little-endian bytes of a 64-bit quantity. -/
def le8 (x : Nat) : Bytes :=
  [x % 256, x / 256 % 256, x / 65536 % 256, x / 16777216 % 256,
   x / 4294967296 % 256, x / 1099511627776 % 256,
   x / 281474976710656 % 256, x / 72057594037927936 % 256]

/-- MD5 padding: `0x80`, zeros to 56 mod 64, then the bit length. -/
def md5pad (ms : Bytes) : Bytes :=
  let n := ms.length
  let k := (56 + 64 - (n + 1) % 64) % 64
  ms ++ 128 :: List.replicate k 0 ++ le8 (ms.length * 8 % 18446744073709551616)

/-- Little-endian bytes of one 32-bit state word. -/
def le4 (x : Nat) : Bytes := [x % 256, x / 256 % 256, x / 65536 % 256, x / 16777216 % 256]

/-- The 16-byte MD5 digest of a message. -/
def md5compute (ms : Bytes) : Bytes :=
  let st := (chunks64 (md5pad ms)).foldl md5Block
    (0x67452301, 0xefcdab89, 0x98badcfe, 0x10325476)
  le4 st.1 ++ le4 st.2.1 ++ le4 st.2.2.1 ++ le4 st.2.2.2

/-- Lowercase hex digit byte. -/
def hexDigit (n : Nat) : Nat := if n < 10 then 48 + n else 87 + n

/-- Lowercase hex rendering of a byte string. -/
def toHex (bs : Bytes) : Bytes := bs.flatMap fun b => [hexDigit (b / 16), hexDigit (b % 16)]

/-- `format!("{:x}", md5::compute(ms))`: the 32-character lowercase hex digest. -/
def md5hex (ms : Bytes) : Bytes := toHex (md5compute ms)

/-! ## The transfer store

`FILE_DATA : Mutex<BTreeMap<Id, (ChunkedData, Instant)>>` with
`ChunkedData = BTreeMap<Counter, Data>`.  Both maps are modelled as
key-sorted association lists; `Instant` is a natural number of
milliseconds. -/

/-- `BTreeMap<u32, String>`: a fragment map sorted by sequence number. -/
abbrev ChunkedData := List (Nat × Bytes)

/-- `BTreeMap::insert` on the fragment map (overwrites an equal key). -/
def insertCD (k : Nat) (v : Bytes) : ChunkedData → ChunkedData
  | [] => [(k, v)]
  | (k2, v2) :: rest =>
    if k < k2 then (k, v) :: (k2, v2) :: rest
    else if k = k2 then (k, v) :: rest
    else (k2, v2) :: insertCD k v rest

/-- Lexicographic byte-string order (the `Ord` of a Rust `String` key). -/
def bytesLt : Bytes → Bytes → Bool
  | [], [] => false
  | [], _ :: _ => true
  | _ :: _, [] => false
  | a :: as2, b :: bs2 => if a < b then true else if a = b then bytesLt as2 bs2 else false

/-- The shared table: transfer id → (fragment map, last-seen instant). -/
abbrev Store := List (Bytes × (ChunkedData × Nat))

/-- `BTreeMap::insert` on the shared table. -/
def insertStore (id : Bytes) (v : ChunkedData × Nat) : Store → Store
  | [] => [(id, v)]
  | (id2, v2) :: rest =>
    if bytesLt id id2 then (id, v) :: (id2, v2) :: rest
    else if id = id2 then (id, v) :: rest
    else (id2, v2) :: insertStore id v rest

/-- `BTreeMap::get` on the shared table. -/
def storeLookup (st : Store) (id : Bytes) : Option (ChunkedData × Nat) :=
  match st with
  | [] => none
  | (id2, v) :: rest => if id = id2 then some v else storeLookup rest id

/-- `BTreeMap::remove`: the removed value (if any) and the remaining table. -/
def storeRemove : Store → Bytes → Option (ChunkedData × Nat) × Store
  | [], _ => (none, [])
  | (id2, v) :: rest, id =>
    if id = id2 then (some v, rest)
    else
      let r := storeRemove rest id
      (r.1, (id2, v) :: r.2)

/-- The net store mutation of a successful `parse_name`:
`entry(id).or_insert((BTreeMap::default(), now))`, then `entry.1 = now`
and `entry.0.insert(ctr, frag)`. -/
def storeUpsert (st : Store) (id : Bytes) (ctr : Nat) (frag : Bytes) (now : Nat) : Store :=
  match storeLookup st id with
  | some (m, _) => insertStore id (insertCD ctr frag m, now) st
  | none => insertStore id ([(ctr, frag)], now) st

/-! ## `parse_name` -/

/-- Decode failures that `parse_name` returns as `Err` (via `?`):
`String::from_utf8` on the id label, `str::parse::<u32>` on the
sequence-number label. -/
inductive ParseErr where
  | malformedId
  | malformedSeq
deriving DecidableEq

/-- Result of `parse_name`: `Ok(())` with the mutated store, an `Err`
(store untouched — both fallible steps precede the lock), or a panic. -/
inductive ParseResult where
  | ok (st : Store)
  | err (e : ParseErr)
  | panic
deriving DecidableEq

/-- `parse_name(name)`.  `labels` is the label sequence in `Name::iter`
order; the code reverses it and skips one label, indexes `labels[0]`
(id) and `labels[1]` (sequence number) — panicking when absent — and
strictly UTF-8-decodes `labels[2..]` with `.unwrap()`, reversed back and
concatenated into the fragment. -/
def parseName (st : Store) (labels : List Bytes) (now : Nat) : ParseResult :=
  let ls := labels.reverse.drop 1
  match ls with
  | [] => .panic
  | l0 :: ls1 =>
    if validUtf8 l0 then
      match ls1 with
      | [] => .panic
      | l1 :: ls2 =>
        match parseCtr l1 with
        | none => .err .malformedSeq
        | some ctr =>
          if ls2.all (fun l => validUtf8 l) then
            .ok (storeUpsert st l0 ctr ls2.reverse.flatten now)
          else .panic
    else .err .malformedId

/-! ## The responder (the body of the UDP loop in `main`) -/

/-- Response codes the responder can send. -/
inductive RCode where
  | noError
  | servFail
deriving DecidableEq

/-- An inbound query, already classified by `query_type() == TXT`,
carrying the name's label sequence in `Name::iter` order. -/
inductive Query where
  | txt (labels : List Bytes)
  | data (labels : List Bytes)
deriving DecidableEq

/-- Result of one responder iteration: a reply (with the possibly
mutated store) or a panic of the main thread. -/
inductive RespResult where
  | reply (code : RCode) (st : Store)
  | panic
deriving DecidableEq

/-- One iteration of the responder loop.  A TXT query answers the fixed
text when its first label is `b"file"`, and hits `todo!()` otherwise
(`b"help"` included); any other query type goes through `parse_name`,
answering `ServFail` on a decode `Err`. -/
def respond (st : Store) (q : Query) (now : Nat) : RespResult :=
  match q with
  | .txt labels =>
    match labels.head? with
    | none => .panic
    | some l =>
      if l = [102, 105, 108, 101] then .reply .noError st
      else .panic
  | .data labels =>
    match parseName st labels now with
    | .ok st2 => .reply .noError st2
    | .err _ => .reply .servFail st
    | .panic => .panic

/-! ## `assemble_file` -/

/-- The completed-file record (`struct File`). -/
structure File where
  filename : Bytes
  content : Bytes
  md5 : Bytes
  time : Nat
deriving DecidableEq

/-- Result of `assemble_file`: success, the one recoverable `Err`
(`base64::decode(payload)?`), or a panic (all four `assert`s and the
slice-index panics). -/
inductive AsmResult where
  | ok (f : File)
  | err
  | panic
deriving DecidableEq

/-- `replace('*', "+")` on one byte. -/
def subStar (b : Nat) : Nat := if b = 42 then 43 else b

/-- `payload.replace('*', "+").replace('-', "")` (all bytes involved are
ASCII, so the byte-level maps agree with the char-level ones on the
valid-UTF-8 strings the store holds). -/
def normalize (payload : Bytes) : Bytes := (payload.map subStar).filter (fun b => b ≠ 45)

/-- Split at the first zero byte: `(before, after)`. -/
def splitOnZero : Bytes → Option (Bytes × Bytes)
  | [] => none
  | 0 :: r => some ([], r)
  | b :: r =>
    match splitOnZero r with
    | some (pre, post) => some (b :: pre, post)
    | none => none

/-- `payload.splitn(3, |&x| x == 0)`: one to three parts. -/
def splitn3 (xs : Bytes) : List Bytes :=
  match splitOnZero xs with
  | none => [xs]
  | some (p1, r1) =>
    match splitOnZero r1 with
    | none => [p1, r1]
    | some (p2, r2) => [p1, p2, r2]

/-- `assemble_file(id, data, _time)`.  `wallNow` stands for the
`Utc::now()` wall-clock reading stored in the produced `File`.
Mirrors the source line by line: the contiguity `assert_eq!`, the
trailing-`-` `assert_ne!` (including the byte-slice panics on an empty
payload or a continuation byte at the cut), alphabet normalisation,
base64 decode (`?` — the only recoverable error), the three-part
envelope split with its index panics, the empty-content-type
`assert_eq!`, and the checksum-prefix `assert_eq!`. -/
def assembleFile (id : Bytes) (data : ChunkedData) (wallNow : Nat) : AsmResult :=
  match (data.map Prod.fst).getLast? with
  | none => .panic
  | some maxKey =>
    if maxKey ≠ data.length - 1 then .panic
    else
      let payload := (data.map Prod.snd).flatten
      match payload.getLast? with
      | none => .panic
      | some lastB =>
        if 128 ≤ lastB && lastB < 192 then .panic
        else if lastB = 45 then .panic
        else
          match b64decode (normalize payload) with
          | none => .err
          | some env =>
            match splitn3 env with
            | [p0, p1, p2] =>
              if utf8Lossy p1 ≠ [] then .panic
              else
                let content := utf8Lossy p2
                let hash := md5hex content
                if id ≠ hash.take 4 then .panic
                else .ok ⟨utf8Lossy p0, content, hash, wallNow⟩
            | _ => .panic

/-! ## The idle sweeper (`file_writer`) -/

/-- `Duration::new(5, 0)`, in milliseconds. -/
def fiveSeconds : Nat := 5000

/-- The `delete_list` a sweep at instant `now` builds under the lock:
every id whose `now - lastSeen` strictly exceeds the threshold, in store
(key) order.  `Instant` subtraction saturates at zero, as does `Nat`
subtraction. -/
def drainList (st : Store) (now : Nat) : List Bytes :=
  (st.filter fun e => fiveSeconds < now - e.2.2).map Prod.fst

/-- Events of one sweep iteration, for stating lock-discipline facts. -/
inductive Ev where
  | lockAcquire
  | removeEv (id : Bytes)
  | assembleEv (id : Bytes)
  | lockRelease
deriving DecidableEq

/-- Outcome of one sweep: the remaining store plus the per-transfer
assembly results handed onward, or a panic of the sweeper thread. -/
inductive SweepOutcome where
  | done (st : Store) (emitted : List (Bytes × AsmResult))
  | panicked
deriving DecidableEq

/-- The drain-and-assemble loop over `delete_list`.  The `MutexGuard`
taken before `delete_list` is built lives to the end of the loop body,
so removal *and* assembly happen under the lock; it is released (by
drop, or by unwind when an assembly assertion panics) only afterwards. -/
def sweepGo (wallNow : Nat) : List Bytes → Store → List (Bytes × AsmResult) → List Ev →
    SweepOutcome × List Ev
  | [], st, out, tr => (.done st out, tr ++ [.lockRelease])
  | id :: rest, st, out, tr =>
    match storeRemove st id with
    | (none, st2) => sweepGo wallNow rest st2 out tr
    | (some (data, _), st2) =>
      let tr2 := tr ++ [.removeEv id, .assembleEv id]
      match assembleFile id data wallNow with
      | .panic => (.panicked, tr2 ++ [.lockRelease])
      | r => sweepGo wallNow rest st2 (out ++ [(id, r)]) tr2

/-- One tick of `file_writer` after its 1-second sleep: lock, build
`delete_list`, remove-and-assemble each stale transfer, unlock. -/
def sweepTick (st : Store) (now wallNow : Nat) : SweepOutcome × List Ev :=
  sweepGo wallNow (drainList st now) st [] [.lockAcquire]

/-- The `BTreeMap::insert` step as a fold step over `(key, value)` pairs. -/
def cdStep (m : ChunkedData) (p : Nat × Bytes) : ChunkedData := insertCD p.1 p.2 m

/-- Sequence-numbered fragments `(i, f i), (i+1, f (i+1)), …`. -/
def enumFrags : Nat → List Bytes → List (Nat × Bytes)
  | _, [] => []
  | i, f :: rest => (i, f) :: enumFrags (i + 1) rest

/-! ## The transmission scheme (sender side)

The sender program is not part of this repository (only the receiving
engine is under `src/`), so the encoder below is modelled from the
spec's transmission scheme: build `filename \0 type \0 content` with the
empty content type, base64-encode it, substitute `'*'` for `'+'`, chunk
it into sequence-numbered fragments, append the `'-'` continuation
marker to every fragment but the last, and send each fragment in a query
name `fragment.seq.id.suffix` with the id equal to the first 4 hex
characters of the checksum of the content. -/

/-- Modelled from the spec: the sender substitutes `'*'` for `'+'`. -/
def subPlus (b : Nat) : Nat := if b = 43 then 42 else b

/-- Modelled from the spec: `filename \0 type \0 content`, empty type. -/
def envelope (F C : Bytes) : Bytes := F ++ 0 :: 0 :: C

/-- Modelled from the spec: the substituted base64 transmission text. -/
def txPayload (F C : Bytes) : Bytes := (b64encode (envelope F C)).map subPlus

/-- Modelled from the spec: append the `'-'` continuation marker to
every fragment except the last. -/
def markChunks : List Bytes → List Bytes
  | [] => []
  | [c] => [c]
  | c :: c2 :: rest => (c ++ [45]) :: markChunks (c2 :: rest)

/-- Modelled from the spec: the transfer id is the first 4 hex
characters of the checksum of the content. -/
def txId (C : Bytes) : Bytes := (md5hex C).take 4

/-- Modelled from the spec: the query name carrying fragment number
`p.1` with text `p.2`: labels `fragment.seq.id.suffix`. -/
def mkQuery (idB : Bytes) (p : Nat × Bytes) (suffix : Bytes) : List Bytes :=
  [p.2, decStr p.1, idB, suffix]

/-- Feed a list of queries through `parse_name` one at a time, stopping
(`none`) unless every one returns `Ok`. -/
def runQueries (st : Store) (qs : List (List Bytes)) (now : Nat) : Option Store :=
  match qs with
  | [] => some st
  | q :: rest =>
    match parseName st q now with
    | .ok st2 => runQueries st2 rest now
    | _ => none

/-! ## Upsert algebra -/

/-- The fragment map currently stored for `id` (empty when absent). -/
def mOf (s : Store) (id : Bytes) : ChunkedData :=
  match storeLookup s id with
  | some e => e.1
  | none => []

/-- The concatenated payload assembly reads for `id`: fragment text in
ascending sequence-number order (`data.into_iter().map(|(_, s)| s).collect()`). -/
def payloadOf (st : Store) (id : Bytes) : Option Bytes :=
  (storeLookup st id).map fun e => (e.1.map Prod.snd).flatten

theorem headCharLen_ascii (b : Nat) (rest : List Nat) (hb : b < 128) :
    headCharLen b rest = some 0 := by
  simp [headCharLen, hb]

theorem validUtf8Aux_fuel : ∀ f1 f2 : Nat, ∀ l : List Nat, l.length ≤ f1 → l.length ≤ f2 →
    validUtf8Aux f1 l = validUtf8Aux f2 l := by
  intro f1
  induction f1 with
  | zero =>
    intro f2 l h1 _
    have : l = [] := List.eq_nil_of_length_eq_zero (Nat.le_zero.1 h1)
    subst this
    cases f2 <;> rfl
  | succ g1 ih =>
    intro f2 l h1 h2
    cases l with
    | nil => cases f2 <;> rfl
    | cons b rest =>
      cases f2 with
      | zero => exact absurd h2 (by simp)
      | succ g2 =>
        rw [validUtf8Aux, validUtf8Aux]
        cases hk : headCharLen b rest with
        | none => rfl
        | some k =>
          dsimp only
          have hr : (rest.drop k).length ≤ rest.length := by
            simp only [List.length_drop]; omega
          simp only [List.length_cons] at h1 h2
          exact ih g2 (rest.drop k) (by omega) (by omega)

/-- A list of ASCII bytes is valid UTF-8. -/
theorem validUtf8_of_ascii : ∀ bs : Bytes, (∀ b ∈ bs, b < 128) → validUtf8 bs = true := by
  have aux : ∀ fuel : Nat, ∀ bs : Bytes, bs.length ≤ fuel → (∀ b ∈ bs, b < 128) →
      validUtf8Aux fuel bs = true := by
    intro fuel
    induction fuel with
    | zero =>
      intro bs h1 _
      have : bs = [] := List.eq_nil_of_length_eq_zero (Nat.le_zero.1 h1)
      subst this; rfl
    | succ g ih =>
      intro bs h1 h
      cases bs with
      | nil => rfl
      | cons b rest =>
        have hb : b < 128 := h b (List.mem_cons_self _ _)
        rw [validUtf8Aux, headCharLen_ascii b rest hb]
        dsimp only
        rw [List.drop_zero]
        simp only [List.length_cons] at h1
        exact ih rest (by omega) fun x hx => h x (List.mem_cons_of_mem _ hx)
  intro bs h
  exact aux bs.length bs (le_refl _) h

/-- Lossy decoding is the identity on valid UTF-8. -/
theorem utf8Lossy_of_valid : ∀ bs : Bytes, validUtf8 bs = true → utf8Lossy bs = bs := by
  have aux : ∀ fuel : Nat, ∀ bs : Bytes, bs.length ≤ fuel → validUtf8Aux fuel bs = true →
      utf8LossyAux fuel bs = bs := by
    intro fuel
    induction fuel with
    | zero =>
      intro bs h1 _
      have : bs = [] := List.eq_nil_of_length_eq_zero (Nat.le_zero.1 h1)
      subst this; rfl
    | succ g ih =>
      intro bs h1 h
      cases bs with
      | nil => rfl
      | cons b rest =>
        rw [validUtf8Aux] at h
        rw [utf8LossyAux]
        cases hk : headCharLen b rest with
        | none => rw [hk] at h; exact absurd h (by simp)
        | some k =>
          rw [hk] at h
          dsimp only at h ⊢
          simp only [List.length_cons] at h1
          have hr : (rest.drop k).length ≤ g := by
            simp only [List.length_drop]; omega
          rw [ih (rest.drop k) hr h, List.take_append_drop]
  intro bs h
  exact aux bs.length bs (le_refl _) h

theorem decStrAux_digits : ∀ fuel n, ∀ b ∈ decStrAux fuel n, 48 ≤ b ∧ b ≤ 57 := by
  intro fuel
  induction fuel with
  | zero =>
    intro n b hb
    rw [decStrAux] at hb
    simp only [List.mem_singleton] at hb
    have := Nat.mod_lt n (y := 10) (by norm_num)
    omega
  | succ g ih =>
    intro n b hb
    rw [decStrAux] at hb
    split at hb
    · simp only [List.mem_singleton] at hb
      omega
    · rcases List.mem_append.1 hb with h1 | h1
      · exact ih (n / 10) b h1
      · simp only [List.mem_singleton] at h1
        have := Nat.mod_lt n (y := 10) (by norm_num)
        omega

theorem decStr_digits (n : Nat) : ∀ b ∈ decStr n, 48 ≤ b ∧ b ≤ 57 :=
  decStrAux_digits n n

theorem decStr_ne_nil (n : Nat) : decStr n ≠ [] := by
  unfold decStr
  cases n with
  | zero => simp [decStrAux]
  | succ m =>
    rw [decStrAux]
    split
    · simp
    · simp

theorem parseDigitsAux_append (acc : Nat) (xs ys : Bytes) :
    parseDigitsAux acc (xs ++ ys) =
      match parseDigitsAux acc xs with
      | some a => parseDigitsAux a ys
      | none => none := by
  induction xs generalizing acc with
  | nil => rfl
  | cons b r ih =>
    simp only [List.cons_append, parseDigitsAux]
    cases digitVal b with
    | some d => exact ih (acc * 10 + d)
    | none => rfl

theorem parseDigitsAux_decStrAux : ∀ fuel n, n ≤ fuel →
    ∀ acc, parseDigitsAux acc (decStrAux fuel n) =
      some (acc * 10 ^ (decStrAux fuel n).length + n) := by
  intro fuel
  induction fuel with
  | zero =>
    intro n hn acc
    have : n = 0 := Nat.le_zero.1 hn
    subst this
    rw [decStrAux]
    simp only [parseDigitsAux, digitVal, List.length_singleton]
    rw [if_pos (by simp)]
    dsimp only
    simp
  | succ g ih =>
    intro n hn acc
    rw [decStrAux]
    split
    · rename_i h
      simp only [parseDigitsAux, digitVal, List.length_singleton]
      rw [if_pos (by simp; omega)]
      dsimp only
      simp only [Nat.add_sub_cancel_left, pow_one]
    · rename_i h
      have hrec : n / 10 ≤ g := by omega
      rw [parseDigitsAux_append, ih (n / 10) hrec acc]
      simp only [parseDigitsAux, digitVal, List.length_append, List.length_singleton]
      rw [if_pos (by simp; omega)]
      dsimp only
      have hm : 48 + n % 10 - 48 = n % 10 := by omega
      rw [hm, pow_succ]
      congr 1
      have hdm : 10 * (n / 10) + n % 10 = n := Nat.div_add_mod n 10
      calc (acc * 10 ^ (decStrAux g (n / 10)).length + n / 10) * 10 + n % 10
          = acc * (10 ^ (decStrAux g (n / 10)).length * 10) + (10 * (n / 10) + n % 10) := by
            ring
        _ = acc * (10 ^ (decStrAux g (n / 10)).length * 10) + n := by rw [hdm]

/-- The decimal printer and the `u32` parser round-trip. -/
theorem parseU32_decStr (n : Nat) (h : n < 2 ^ 32) : parseU32 (decStr n) = some n := by
  have hd := decStr_digits n
  have hne := decStr_ne_nil n
  unfold parseU32
  have hds : (match decStr n with | 43 :: r => r | _ => decStr n) = decStr n := by
    cases hcase : decStr n with
    | nil => rfl
    | cons b r =>
      have hb := hd b (hcase ▸ List.mem_cons_self b r)
      match b, hb with
      | b, ⟨h1, h2⟩ =>
        cases Nat.lt_or_ge b 44 with
        | inl _ => omega
        | inr _ =>
          split
          · rename_i heq; rw [heq] at hcase; have := hd 43 (hcase ▸ List.mem_cons_self _ _); omega
          · rfl
  rw [hds]
  cases hcase : decStr n with
  | nil => exact absurd hcase hne
  | cons b r =>
    dsimp only
    rw [← hcase]
    unfold decStr
    rw [parseDigitsAux_decStrAux n n (le_refl n) 0]
    dsimp only
    simp only [Nat.zero_mul, Nat.zero_add]
    rw [if_pos h]

theorem decStr_ascii (n : Nat) : ∀ b ∈ decStr n, b < 128 := by
  intro b hb
  have := decStr_digits n b hb
  omega

/-- The full counter decode round-trips on printed numbers below `2^32`. -/
theorem parseCtr_decStr (n : Nat) (h : n < 2 ^ 32) : parseCtr (decStr n) = some n := by
  unfold parseCtr
  rw [utf8Lossy_of_valid _ (validUtf8_of_ascii _ (decStr_ascii n))]
  exact parseU32_decStr n h

theorem b64Val_b64Char : ∀ v, v < 64 → b64Val (b64Char v) = some v := by decide

theorem b64Char_range : ∀ v, v < 64 →
    b64Char v < 128 ∧ b64Char v ≠ 42 ∧ b64Char v ≠ 45 ∧ b64Char v ≠ 61 := by decide

/-- Every byte that base64 encoding emits is ASCII and is none of
`'*'`, `'-'` (the padding byte `'='` is ASCII too). -/
theorem b64encode_bytes : ∀ bs : Bytes, (∀ b ∈ bs, b < 256) →
    ∀ x ∈ b64encode bs, x < 128 ∧ x ≠ 42 ∧ x ≠ 45 := by
  intro bs
  induction bs using b64encode.induct with
  | case1 => intro _ x hx; rw [b64encode] at hx; cases hx
  | case2 a =>
    intro hin x hx
    have ha : a < 256 := hin a (by simp)
    have h1 := b64Char_range (a / 4) (by omega)
    have h2 := b64Char_range (a % 4 * 16) (by omega)
    rw [b64encode] at hx
    simp only [List.mem_cons, List.not_mem_nil, or_false] at hx
    rcases hx with h | h | h | h
    · subst h; exact ⟨h1.1, h1.2.1, h1.2.2.1⟩
    · subst h; exact ⟨h2.1, h2.2.1, h2.2.2.1⟩
    · subst h; omega
    · subst h; omega
  | case3 a b =>
    intro hin x hx
    have ha : a < 256 := hin a (by simp)
    have hb : b < 256 := hin b (by simp)
    have h1 := b64Char_range (a / 4) (by omega)
    have h2 := b64Char_range (a % 4 * 16 + b / 16) (by omega)
    have h3 := b64Char_range (b % 16 * 4) (by omega)
    rw [b64encode] at hx
    simp only [List.mem_cons, List.not_mem_nil, or_false] at hx
    rcases hx with h | h | h | h
    · subst h; exact ⟨h1.1, h1.2.1, h1.2.2.1⟩
    · subst h; exact ⟨h2.1, h2.2.1, h2.2.2.1⟩
    · subst h; exact ⟨h3.1, h3.2.1, h3.2.2.1⟩
    · subst h; omega
  | case4 a b c rest ih =>
    intro hin x hx
    have ha : a < 256 := hin a (by simp)
    have hb : b < 256 := hin b (by simp)
    have hc : c < 256 := hin c (by simp)
    have h1 := b64Char_range (a / 4) (by omega)
    have h2 := b64Char_range (a % 4 * 16 + b / 16) (by omega)
    have h3 := b64Char_range (b % 16 * 4 + c / 64) (by omega)
    have h4 := b64Char_range (c % 64) (by omega)
    rw [b64encode] at hx
    simp only [List.mem_cons] at hx
    rcases hx with h | h | h | h | h
    · subst h; exact ⟨h1.1, h1.2.1, h1.2.2.1⟩
    · subst h; exact ⟨h2.1, h2.2.1, h2.2.2.1⟩
    · subst h; exact ⟨h3.1, h3.2.1, h3.2.2.1⟩
    · subst h; exact ⟨h4.1, h4.2.1, h4.2.2.1⟩
    · exact ih (fun y hy => hin y (by simp [hy])) x (by simpa using h)

/-- Base64 decoding inverts encoding. -/
theorem b64decode_b64encode : ∀ bs : Bytes, (∀ b ∈ bs, b < 256) →
    b64decode (b64encode bs) = some bs := by
  intro bs
  induction bs using b64encode.induct with
  | case1 => intro _; rw [b64encode, b64decode]
  | case2 a =>
    intro hin
    have ha : a < 256 := hin a (by simp)
    rw [b64encode, b64decode,
      b64Val_b64Char (a / 4) (by omega), b64Val_b64Char (a % 4 * 16) (by omega)]
    dsimp only
    rw [if_pos rfl, if_pos (by simp)]
    congr 1
    have h16 : a % 4 * 16 / 16 = a % 4 := by omega
    rw [h16]
    congr 1
    omega
  | case3 a b =>
    intro hin
    have ha : a < 256 := hin a (by simp)
    have hb : b < 256 := hin b (by simp)
    have h3 := b64Char_range (b % 16 * 4) (by omega)
    rw [b64encode, b64decode,
      b64Val_b64Char (a / 4) (by omega), b64Val_b64Char (a % 4 * 16 + b / 16) (by omega)]
    dsimp only
    rw [if_neg h3.2.2.2, b64Val_b64Char (b % 16 * 4) (by omega)]
    dsimp only
    rw [if_pos rfl, if_pos (by simp)]
    congr 1
    congr 1
    · omega
    · congr 1
      omega
  | case4 a b c rest ih =>
    intro hin
    have ha : a < 256 := hin a (by simp)
    have hb : b < 256 := hin b (by simp)
    have hc : c < 256 := hin c (by simp)
    have h3 := b64Char_range (b % 16 * 4 + c / 64) (by omega)
    have h4 := b64Char_range (c % 64) (by omega)
    rw [b64encode, b64decode,
      b64Val_b64Char (a / 4) (by omega), b64Val_b64Char (a % 4 * 16 + b / 16) (by omega)]
    dsimp only
    rw [if_neg h3.2.2.2, b64Val_b64Char (b % 16 * 4 + c / 64) (by omega)]
    dsimp only
    rw [if_neg h4.2.2.2, b64Val_b64Char (c % 64) (by omega)]
    dsimp only
    rw [ih (fun y hy => hin y (by simp [hy]))]
    dsimp only
    congr 2
    · omega
    · congr 1
      · omega
      · congr 1
        omega

/-! ## Fragment-map lemmas -/

theorem insertCD_comm (k1 k2 : Nat) (v1 v2 : Bytes) (h : k1 ≠ k2) (m : ChunkedData) :
    insertCD k1 v1 (insertCD k2 v2 m) = insertCD k2 v2 (insertCD k1 v1 m) := by
  induction m with
  | nil =>
    simp only [insertCD]
    split_ifs <;> simp_all [insertCD] <;> omega
  | cons p rest ih =>
    obtain ⟨k3, v3⟩ := p
    simp only [insertCD]
    split_ifs <;> simp_all [insertCD] <;>
      (try split_ifs) <;> (try simp_all) <;> (try omega)

theorem insertCD_last (k : Nat) (v : Bytes) (m : ChunkedData) (h : ∀ p ∈ m, p.1 < k) :
    insertCD k v m = m ++ [(k, v)] := by
  induction m with
  | nil => rfl
  | cons p rest ih =>
    obtain ⟨k3, v3⟩ := p
    have h3 : k3 < k := h (k3, v3) (List.mem_cons_self _ _)
    simp only [insertCD]
    rw [if_neg (by omega), if_neg (by omega), ih (fun q hq => h q (List.mem_cons_of_mem _ hq))]
    rfl

theorem insertCD_overwrite (k : Nat) (v1 v2 : Bytes) (m : ChunkedData) :
    insertCD k v2 (insertCD k v1 m) = insertCD k v2 m := by
  induction m with
  | nil => simp [insertCD]
  | cons p rest ih =>
    obtain ⟨k3, v3⟩ := p
    simp only [insertCD]
    split_ifs <;> simp_all [insertCD]

/-- Inserting a set of fragments with pairwise-distinct sequence numbers
is order independent. -/
theorem foldl_cdStep_perm (l1 l2 : List (Nat × Bytes)) (hp : l1.Perm l2)
    (hnd : (l1.map Prod.fst).Nodup) (m : ChunkedData) :
    l1.foldl cdStep m = l2.foldl cdStep m := by
  refine hp.foldl_eq' ?_ m
  intro x hx y hy z
  by_cases hxy : x = y
  · subst hxy; rfl
  · have hk : x.1 ≠ y.1 := by
      intro hfst
      exact hxy (List.inj_on_of_nodup_map hnd hx hy hfst)
    show insertCD y.1 y.2 (insertCD x.1 x.2 z) = insertCD x.1 x.2 (insertCD y.1 y.2 z)
    exact insertCD_comm y.1 x.1 y.2 x.2 (Ne.symm hk) z

/-- Folding insertions of strictly ascending keys, all above the
accumulator's keys, appends them in order. -/
theorem foldl_cdStep_sorted : ∀ ps : List (Nat × Bytes), ∀ acc : ChunkedData,
    (∀ q ∈ acc, ∀ p ∈ ps, q.1 < p.1) → ps.Pairwise (fun p q => p.1 < q.1) →
    ps.foldl cdStep acc = acc ++ ps := by
  intro ps
  induction ps with
  | nil => intro acc _ _; simp
  | cons p rest ih =>
    intro acc hlt hpw
    have hstep : cdStep acc p = acc ++ [p] :=
      insertCD_last p.1 p.2 acc fun q hq => hlt q hq p (List.mem_cons_self _ _)
    rw [List.foldl_cons, hstep,
      ih (acc ++ [p]) ?_ (List.Pairwise.sublist (List.sublist_cons_self p rest) hpw)]
    · simp
    · intro q hq r hr
      rcases List.mem_append.1 hq with h1 | h1
      · exact hlt q h1 r (List.mem_cons_of_mem _ hr)
      · simp only [List.mem_singleton] at h1
        subst h1
        exact (List.pairwise_cons.1 hpw).1 r hr

theorem enumFrags_map_snd : ∀ fs : List Bytes, ∀ i, (enumFrags i fs).map Prod.snd = fs := by
  intro fs
  induction fs with
  | nil => intro i; rfl
  | cons f rest ih => intro i; simp [enumFrags, ih]

theorem enumFrags_length : ∀ fs : List Bytes, ∀ i, (enumFrags i fs).length = fs.length := by
  intro fs
  induction fs with
  | nil => intro i; rfl
  | cons f rest ih => intro i; simp [enumFrags, ih]

theorem enumFrags_key_bound : ∀ fs : List Bytes, ∀ i, ∀ p ∈ enumFrags i fs,
    i ≤ p.1 ∧ p.1 < i + fs.length := by
  intro fs
  induction fs with
  | nil => intro i p hp; cases hp
  | cons f rest ih =>
    intro i p hp
    rcases List.mem_cons.1 hp with h | h
    · subst h; simp
    · have := ih (i + 1) p h
      simp only [List.length_cons]
      omega

theorem enumFrags_pairwise : ∀ fs : List Bytes, ∀ i,
    (enumFrags i fs).Pairwise (fun p q => p.1 < q.1) := by
  intro fs
  induction fs with
  | nil => intro i; exact List.Pairwise.nil
  | cons f rest ih =>
    intro i
    rw [enumFrags, List.pairwise_cons]
    exact ⟨fun q hq => by have := enumFrags_key_bound rest (i + 1) q hq; simp; omega, ih (i + 1)⟩

theorem enumFrags_map_fst_nodup (fs : List Bytes) (i : Nat) :
    ((enumFrags i fs).map Prod.fst).Nodup :=
  List.Pairwise.map Prod.fst (fun _ _ h => Nat.ne_of_lt h) (enumFrags_pairwise fs i)

/-! ## Store lemmas -/

theorem bytesLt_irrefl : ∀ bs : Bytes, bytesLt bs bs = false := by
  intro bs
  induction bs with
  | nil => rfl
  | cons b rest ih => simp [bytesLt, ih]

theorem storeUpsert_nil (id : Bytes) (ctr : Nat) (frag : Bytes) (now : Nat) :
    storeUpsert [] id ctr frag now = [(id, ([(ctr, frag)], now))] := rfl

theorem storeUpsert_single (id : Bytes) (m : ChunkedData) (t ctr : Nat) (frag : Bytes)
    (now : Nat) :
    storeUpsert [(id, (m, t))] id ctr frag now = [(id, (insertCD ctr frag m, now))] := by
  unfold storeUpsert storeLookup
  rw [if_pos rfl]
  unfold insertStore
  rw [bytesLt_irrefl, if_neg (by simp), if_pos rfl]

/-- `parse_name` on a well-formed fragment query upserts the fragment. -/
theorem parseName_mkQuery (st : Store) (idB : Bytes) (p : Nat × Bytes) (suffix : Bytes)
    (now : Nat) (hid : validUtf8 idB = true) (hctr : p.1 < 2 ^ 32)
    (hfrag : validUtf8 p.2 = true) :
    parseName st (mkQuery idB p suffix) now = .ok (storeUpsert st idB p.1 p.2 now) := by
  unfold parseName mkQuery
  simp only [List.reverse_cons, List.reverse_nil, List.nil_append, List.cons_append,
    List.drop_succ_cons, List.drop_zero]
  rw [hid]
  rw [if_pos rfl, parseCtr_decStr p.1 hctr]
  dsimp only
  simp only [List.all_cons, List.all_nil, hfrag, Bool.and_self, if_pos]
  simp

theorem runQueries_frags (idB suffix : Bytes) (now : Nat) (hid : validUtf8 idB = true) :
    ∀ ps : List (Nat × Bytes), ∀ m : ChunkedData,
    (∀ p ∈ ps, p.1 < 2 ^ 32 ∧ validUtf8 p.2 = true) →
    runQueries [(idB, (m, now))] (ps.map (fun p => mkQuery idB p suffix)) now =
      some [(idB, (ps.foldl cdStep m, now))] := by
  intro ps
  induction ps with
  | nil => intro m _; rfl
  | cons p rest ih =>
    intro m hps
    have hp := hps p (List.mem_cons_self _ _)
    rw [List.map_cons, runQueries,
      parseName_mkQuery _ idB p suffix now hid hp.1 hp.2,
      storeUpsert_single idB m now p.1 p.2 now]
    exact ih (insertCD p.1 p.2 m) fun q hq => hps q (List.mem_cons_of_mem _ hq)

theorem runQueries_frags_of_empty (idB suffix : Bytes) (now : Nat)
    (hid : validUtf8 idB = true) (ps : List (Nat × Bytes)) (hne : ps ≠ [])
    (hps : ∀ p ∈ ps, p.1 < 2 ^ 32 ∧ validUtf8 p.2 = true) :
    runQueries [] (ps.map (fun p => mkQuery idB p suffix)) now =
      some [(idB, (ps.foldl cdStep [], now))] := by
  cases ps with
  | nil => exact absurd rfl hne
  | cons p rest =>
    have hp := hps p (List.mem_cons_self _ _)
    rw [List.map_cons, runQueries,
      parseName_mkQuery [] idB p suffix now hid hp.1 hp.2, storeUpsert_nil]
    rw [List.foldl_cons]
    exact runQueries_frags idB suffix now hid rest (cdStep [] p)
      fun q hq => hps q (List.mem_cons_of_mem _ hq)

/-! ## Byte-range and normalisation lemmas -/

theorem headCharLen_bound (b : Nat) (rest : List Nat) (k : Nat)
    (h : headCharLen b rest = some k) : b < 245 ∧ ∀ c ∈ rest.take k, c < 192 := by
  unfold headCharLen at h
  split_ifs at h with h1 h2 h3 h4
  · injection h with hk
    subst hk
    exact ⟨by omega, by simp⟩
  · cases rest with
    | nil => exact absurd h (by simp)
    | cons c1 r =>
      dsimp only at h
      simp only [Bool.and_eq_true, decide_eq_true_eq] at h2
      split_ifs at h with hc
      · injection h with hk
        subst hk
        have : c1 < 192 := by simp [contB] at hc; omega
        exact ⟨by omega, by simp [List.take]; omega⟩
  · cases rest with
    | nil => exact absurd h (by simp)
    | cons c1 r =>
      cases r with
      | nil => exact absurd h (by simp)
      | cons c2 r2 =>
        dsimp only at h
        simp only [Bool.and_eq_true, decide_eq_true_eq] at h3
        split_ifs at h with hc
        · injection h with hk
          subst hk
          simp only [Bool.and_eq_true] at hc
          have hc1 : c1 < 192 := by
            have := hc.1
            unfold cont1Ok at this
            split_ifs at this <;> simp [contB] at this <;> omega
          have hc2 : c2 < 192 := by have := hc.2; simp [contB] at this; omega
          refine ⟨by omega, ?_⟩
          intro c hcmem
          simp only [List.take, List.mem_cons, List.not_mem_nil, or_false] at hcmem
          rcases hcmem with h | h <;> omega
  · cases rest with
    | nil => exact absurd h (by simp)
    | cons c1 r =>
      cases r with
      | nil => exact absurd h (by simp)
      | cons c2 r2 =>
        cases r2 with
        | nil => exact absurd h (by simp)
        | cons c3 r3 =>
          dsimp only at h
          simp only [Bool.and_eq_true, decide_eq_true_eq] at h4
          split_ifs at h with hc
          · injection h with hk
            subst hk
            simp only [Bool.and_eq_true] at hc
            have hc1 : c1 < 192 := by
              have := hc.1.1
              unfold cont1Ok at this
              split_ifs at this <;> simp [contB] at this <;> omega
            have hc2 : c2 < 192 := by have := hc.1.2; simp [contB] at this; omega
            have hc3 : c3 < 192 := by have := hc.2; simp [contB] at this; omega
            refine ⟨by omega, ?_⟩
            intro c hcmem
            simp only [List.take, List.mem_cons, List.not_mem_nil, or_false] at hcmem
            rcases hcmem with h | h | h <;> omega

/-- Valid UTF-8 bytes lie below 256. -/
theorem validUtf8_lt_256 : ∀ bs : Bytes, validUtf8 bs = true → ∀ b ∈ bs, b < 256 := by
  have aux : ∀ fuel : Nat, ∀ bs : Bytes, bs.length ≤ fuel → validUtf8Aux fuel bs = true →
      ∀ b ∈ bs, b < 256 := by
    intro fuel
    induction fuel with
    | zero =>
      intro bs h1 _ b hb
      have : bs = [] := List.eq_nil_of_length_eq_zero (Nat.le_zero.1 h1)
      subst this
      cases hb
    | succ g ih =>
      intro bs h1 h b hb
      cases bs with
      | nil => cases hb
      | cons b0 rest =>
        rw [validUtf8Aux] at h
        cases hk : headCharLen b0 rest with
        | none => rw [hk] at h; exact absurd h (by simp)
        | some k =>
          rw [hk] at h
          dsimp only at h
          have hbound := headCharLen_bound b0 rest k hk
          rcases List.mem_cons.1 hb with hb0 | hbr
          · subst hb0; omega
          · rcases List.mem_append.1 ((List.take_append_drop k rest) ▸ hbr) with ht | hd
            · have := hbound.2 b ht; omega
            · simp only [List.length_cons] at h1
              exact ih (rest.drop k) (by simp only [List.length_drop]; omega) h b hd
  intro bs h
  exact aux bs.length bs (le_refl _) h

theorem envelope_lt_256 (F C : Bytes) (hF : validUtf8 F = true) (hC : validUtf8 C = true) :
    ∀ b ∈ envelope F C, b < 256 := by
  intro b hb
  unfold envelope at hb
  rcases List.mem_append.1 hb with h | h
  · exact validUtf8_lt_256 F hF b h
  · rcases List.mem_cons.1 h with h2 | h2
    · omega
    · rcases List.mem_cons.1 h2 with h3 | h3
      · omega
      · exact validUtf8_lt_256 C hC b h3

/-- Every byte of the substituted transmission text is ASCII and is not
`'-'` or `'+'`. -/
theorem txPayload_bytes (F C : Bytes) (hF : validUtf8 F = true) (hC : validUtf8 C = true) :
    ∀ x ∈ txPayload F C, x < 128 ∧ x ≠ 45 ∧ x ≠ 43 := by
  intro x hx
  unfold txPayload at hx
  rcases List.mem_map.1 hx with ⟨y, hy, hxy⟩
  have hb := b64encode_bytes (envelope F C) (envelope_lt_256 F C hF hC) y hy
  subst hxy
  unfold subPlus
  split_ifs with h
  · omega
  · exact ⟨hb.1, hb.2.2, h⟩

theorem subStar_subPlus (y : Nat) (hy : y ≠ 42) : subStar (subPlus y) = y := by
  unfold subStar subPlus
  split_ifs <;> omega

theorem normalize_append (xs ys : Bytes) :
    normalize (xs ++ ys) = normalize xs ++ normalize ys := by
  unfold normalize
  rw [List.map_append, List.filter_append]

/-- Stripping the markers commutes with dropping them between chunks. -/
theorem normalize_markChunks : ∀ cuts : List Bytes,
    normalize (markChunks cuts).flatten = normalize cuts.flatten := by
  intro cuts
  induction cuts using markChunks.induct with
  | case1 => rfl
  | case2 c => rfl
  | case3 c c2 rest ih =>
    show normalize ((c ++ [45]) :: markChunks (c2 :: rest)).flatten =
      normalize (c :: c2 :: rest).flatten
    rw [List.flatten_cons, List.flatten_cons, normalize_append, normalize_append, ih,
      List.flatten_cons, normalize_append]
    have h45 : normalize [45] = [] := rfl
    rw [h45, List.append_nil, normalize_append c (c2 ++ rest.flatten),
      normalize_append c2 rest.flatten]

/-- Normalisation inverts the sender's substitution. -/
theorem normalize_txPayload (F C : Bytes) (hF : validUtf8 F = true) (hC : validUtf8 C = true) :
    normalize (txPayload F C) = b64encode (envelope F C) := by
  unfold normalize txPayload
  rw [List.map_map]
  have hmap : (b64encode (envelope F C)).map (subStar ∘ subPlus) = b64encode (envelope F C) := by
    have : ∀ y ∈ b64encode (envelope F C), (subStar ∘ subPlus) y = id y := by
      intro y hy
      have hb := b64encode_bytes (envelope F C) (envelope_lt_256 F C hF hC) y hy
      simp only [Function.comp_apply, id_eq]
      exact subStar_subPlus y hb.2.1
    rw [List.map_congr_left this, List.map_id]
  rw [hmap]
  apply List.filter_eq_self.2
  intro x hx
  have hb := b64encode_bytes (envelope F C) (envelope_lt_256 F C hF hC) x hx
  simp only [ne_eq, decide_eq_true_eq]
  exact hb.2.2

/-! ## Envelope-splitting lemmas -/

theorem splitOnZero_append (F r : Bytes) (hF : ∀ b ∈ F, b ≠ 0) :
    splitOnZero (F ++ 0 :: r) = some (F, r) := by
  induction F with
  | nil => rfl
  | cons b F2 ih =>
    have hb : b ≠ 0 := hF b (List.mem_cons_self _ _)
    cases b with
    | zero => exact absurd rfl hb
    | succ m =>
      rw [List.cons_append]
      show (match splitOnZero (F2 ++ 0 :: r) with
        | some (pre, post) => some ((m + 1) :: pre, post)
        | none => none) = some ((m + 1) :: F2, r)
      rw [ih fun x hx => hF x (List.mem_cons_of_mem _ hx)]

theorem splitn3_envelope (F C : Bytes) (hF : ∀ b ∈ F, b ≠ 0) :
    splitn3 (envelope F C) = [F, [], C] := by
  unfold splitn3 envelope
  rw [splitOnZero_append F (0 :: C) hF]
  rfl

/-! ## Canonical-transfer lemmas -/

theorem markChunks_length : ∀ cuts : List Bytes, (markChunks cuts).length = cuts.length := by
  intro cuts
  induction cuts using markChunks.induct with
  | case1 => rfl
  | case2 c => rfl
  | case3 c c2 rest ih => simp only [markChunks, List.length_cons] at ih ⊢; omega

theorem markChunks_flatten_getLast : ∀ cuts : List Bytes, ∀ c : Bytes,
    cuts.getLast? = some c → c ≠ [] →
    (markChunks cuts).flatten.getLast? = c.getLast? := by
  intro cuts
  induction cuts using markChunks.induct with
  | case1 => intro c hl _; cases hl
  | case2 c0 =>
    intro c hl _
    have : c = c0 := by
      simp only [List.getLast?_singleton, Option.some.injEq] at hl
      exact hl.symm
    subst this
    simp [markChunks]
  | case3 c0 c2 rest ih =>
    intro c hl hc
    have hl2 : (c2 :: rest).getLast? = some c := by
      rw [← List.getLast?_cons_cons (b := c2) (l := rest) (a := c0)]
      exact hl
    have hin := ih c hl2 hc
    have hne : (markChunks (c2 :: rest)).flatten ≠ [] := by
      intro hcontra
      rw [hcontra] at hin
      have hnone : c.getLast? = none := by rw [← hin]; rfl
      exact hc (List.getLast?_eq_none_iff.1 hnone)
    show ((c0 ++ [45]) :: (markChunks (c2 :: rest))).flatten.getLast? = c.getLast?
    rw [List.flatten_cons, List.getLast?_append_of_ne_nil _ hne]
    exact hin

theorem markChunks_mem : ∀ cuts : List Bytes, ∀ mc ∈ markChunks cuts, ∀ x ∈ mc,
    x ∈ cuts.flatten ∨ x = 45 := by
  intro cuts
  induction cuts using markChunks.induct with
  | case1 => intro mc hmc; cases hmc
  | case2 c0 =>
    intro mc hmc x hx
    simp only [markChunks, List.mem_singleton] at hmc
    subst hmc
    left
    simp only [List.flatten_cons, List.flatten_nil, List.append_nil]
    exact hx
  | case3 c0 c2 rest ih =>
    intro mc hmc x hx
    simp only [markChunks, List.mem_cons] at hmc
    rcases hmc with h | h
    · subst h
      rcases List.mem_append.1 hx with h1 | h1
      · left
        simp only [List.flatten_cons]
        exact List.mem_append.2 (Or.inl h1)
      · right
        simp only [List.mem_singleton] at h1
        exact h1
    · rcases ih mc h x hx with h1 | h1
      · left
        simp only [List.flatten_cons]
        exact List.mem_append.2 (Or.inr h1)
      · right; exact h1

theorem enumFrags_keys_getLast : ∀ fs : List Bytes, ∀ i, fs ≠ [] →
    ((enumFrags i fs).map Prod.fst).getLast? = some (i + fs.length - 1) := by
  intro fs
  induction fs with
  | nil => intro i h; exact absurd rfl h
  | cons f rest ih =>
    intro i _
    cases rest with
    | nil => simp [enumFrags]
    | cons f2 rest2 =>
      have h2 := ih (i + 1) (by simp)
      rw [enumFrags, List.map_cons]
      rw [enumFrags, List.map_cons] at h2 ⊢
      rw [List.getLast?_cons_cons, h2]
      congr 1
      simp only [List.length_cons]
      omega

/-- `assemble_file` on the canonically encoded transfer succeeds and
reproduces the filename, the content and the full checksum. -/
theorem assembleFile_canonical (F C : Bytes) (cuts : List Bytes) (wall : Nat)
    (hF : validUtf8 F = true) (hC : validUtf8 C = true) (hF0 : ∀ b ∈ F, b ≠ 0)
    (hcuts : cuts.flatten = txPayload F C) (hne : cuts ≠ []) (hcne : ∀ c ∈ cuts, c ≠ []) :
    assembleFile (txId C) (enumFrags 0 (markChunks cuts)) wall =
      AsmResult.ok ⟨F, C, md5hex C, wall⟩ := by
  have hmne : markChunks cuts ≠ [] := by
    intro hmc
    have := markChunks_length cuts
    rw [hmc] at this
    exact hne (List.eq_nil_of_length_eq_zero this.symm)
  unfold assembleFile
  rw [enumFrags_keys_getLast (markChunks cuts) 0 hmne]
  dsimp only
  rw [if_neg (by rw [enumFrags_length, markChunks_length]; simp [markChunks_length])]
  rw [enumFrags_map_snd]
  -- the last payload byte comes from the last cut and is a payload byte
  cases hlast : cuts.getLast? with
  | none => exact absurd (List.getLast?_eq_none_iff.1 hlast) hne
  | some c =>
    have hcnil : c ≠ [] := hcne c (List.mem_of_mem_getLast? hlast)
    have hpl := markChunks_flatten_getLast cuts c hlast hcnil
    cases hcl : c.getLast? with
    | none => exact absurd (List.getLast?_eq_none_iff.1 hcl) hcnil
    | some b =>
      have hbmem : b ∈ txPayload F C := by
        rw [← hcuts]
        exact List.mem_flatten.2 ⟨c, List.mem_of_mem_getLast? hlast, List.mem_of_mem_getLast? hcl⟩
      have hbprop := txPayload_bytes F C hF hC b hbmem
      rw [hpl, hcl]
      dsimp only
      rw [if_neg (by simp; omega), if_neg (by omega)]
      have hnorm : normalize (markChunks cuts).flatten = b64encode (envelope F C) := by
        rw [normalize_markChunks, hcuts, normalize_txPayload F C hF hC]
      rw [hnorm, b64decode_b64encode (envelope F C) (envelope_lt_256 F C hF hC)]
      dsimp only
      rw [splitn3_envelope F C hF0]
      dsimp only
      rw [if_neg (by simp [utf8Lossy, utf8LossyAux])]
      rw [utf8Lossy_of_valid C hC, utf8Lossy_of_valid F hF]
      rw [if_neg (by unfold txId; simp)]

/-! ## The transfer id is ASCII -/

theorem le4_lt_256 (x : Nat) : ∀ b ∈ le4 x, b < 256 := by
  intro b hb
  simp only [le4, List.mem_cons, List.not_mem_nil, or_false] at hb
  rcases hb with h | h | h | h <;> subst h <;> exact Nat.mod_lt _ (by norm_num)

theorem md5compute_lt_256 (ms : Bytes) : ∀ b ∈ md5compute ms, b < 256 := by
  intro b hb
  unfold md5compute at hb
  rcases List.mem_append.1 hb with h | h
  · rcases List.mem_append.1 h with h2 | h2
    · rcases List.mem_append.1 h2 with h3 | h3
      · exact le4_lt_256 _ b h3
      · exact le4_lt_256 _ b h3
    · exact le4_lt_256 _ b h2
  · exact le4_lt_256 _ b h

theorem md5hex_ascii (ms : Bytes) : ∀ x ∈ md5hex ms, x < 128 := by
  intro x hx
  unfold md5hex toHex at hx
  rcases List.mem_flatMap.1 hx with ⟨b, hb, hxb⟩
  have h256 := md5compute_lt_256 ms b hb
  simp only [List.mem_cons, List.not_mem_nil, or_false] at hxb
  have h16a : b / 16 < 16 := by omega
  have h16b : b % 16 < 16 := by omega
  rcases hxb with h | h <;> subst h <;> unfold hexDigit <;> split_ifs <;> omega

theorem txId_valid (C : Bytes) : validUtf8 (txId C) = true := by
  apply validUtf8_of_ascii
  intro b hb
  exact md5hex_ascii C b (List.mem_of_mem_take hb)

/-! ## Single-transfer sweep -/

theorem sweepTick_single (id : Bytes) (data : ChunkedData) (t0 now wall : Nat)
    (hnow : fiveSeconds < now - t0) (f : File) (hres : assembleFile id data wall = .ok f) :
    sweepTick [(id, (data, t0))] now wall =
      (.done [] [(id, .ok f)],
        [.lockAcquire, .removeEv id, .assembleEv id, .lockRelease]) := by
  unfold sweepTick drainList
  have hcond : decide (fiveSeconds < now - t0) = true := decide_eq_true hnow
  simp only [List.filter, hcond, List.map_cons, List.map_nil]
  unfold sweepGo storeRemove
  rw [if_pos rfl]
  dsimp only
  rw [hres]
  rfl

/-! ## Fragments of a canonical transfer decode -/

theorem enumFrags_mem_snd : ∀ fs : List Bytes, ∀ i, ∀ p ∈ enumFrags i fs, p.2 ∈ fs := by
  intro fs
  induction fs with
  | nil => intro i p hp; cases hp
  | cons f rest ih =>
    intro i p hp
    rcases List.mem_cons.1 hp with h | h
    · subst h; exact List.mem_cons_self _ _
    · exact List.mem_cons_of_mem _ (ih (i + 1) p h)

theorem canonical_frag_props (F C : Bytes) (cuts : List Bytes)
    (hF : validUtf8 F = true) (hC : validUtf8 C = true)
    (hcuts : cuts.flatten = txPayload F C) (hlen : cuts.length ≤ 2 ^ 32) :
    ∀ p ∈ enumFrags 0 (markChunks cuts), p.1 < 2 ^ 32 ∧ validUtf8 p.2 = true := by
  intro p hp
  constructor
  · have := enumFrags_key_bound (markChunks cuts) 0 p hp
    have hl := markChunks_length cuts
    omega
  · apply validUtf8_of_ascii
    intro x hx
    have hmem := enumFrags_mem_snd (markChunks cuts) 0 p hp
    rcases markChunks_mem cuts p.2 hmem x hx with h | h
    · exact (txPayload_bytes F C hF hC x (hcuts ▸ h)).1
    · omega

/-- **C1**: Round trip.  For every filename `F` and content `C`
(arbitrary strings, the filename free of NUL bytes), encoding per the
transmission scheme — chunking the substituted base64 text into
sequence-numbered fragments, `'*'` standing for `'+'`, the `'-'`
continuation marker on every fragment but the last, the id being the
first 4 hex characters of the checksum of `C` — and feeding the
resulting fragment queries through `parse_name` in any order, followed
by draining and `assemble_file`, yields a completed `File` whose
filename equals `F`, whose content equals `C`, and whose checksum's
first 4 hex characters equal the id. -/
theorem c1_round_trip (F C : Bytes) (cuts : List Bytes) (suffix : Bytes)
    (ps : List (Nat × Bytes)) (t0 wall : Nat)
    (hF : validUtf8 F = true) (hC : validUtf8 C = true) (hF0 : ∀ b ∈ F, b ≠ 0)
    (hcuts : cuts.flatten = txPayload F C) (hne : cuts ≠ []) (hcne : ∀ c ∈ cuts, c ≠ [])
    (hlen : cuts.length ≤ 2 ^ 32)
    (hperm : ps.Perm (enumFrags 0 (markChunks cuts))) :
    runQueries [] (ps.map fun p => mkQuery (txId C) p suffix) t0 =
      some [(txId C, (enumFrags 0 (markChunks cuts), t0))] ∧
    sweepTick [(txId C, (enumFrags 0 (markChunks cuts), t0))] (t0 + 6000) wall =
      (.done [] [(txId C, .ok ⟨F, C, md5hex C, wall⟩)],
       [.lockAcquire, .removeEv (txId C), .assembleEv (txId C), .lockRelease]) ∧
    (md5hex C).take 4 = txId C := by
  have hprops : ∀ p ∈ enumFrags 0 (markChunks cuts), p.1 < 2 ^ 32 ∧ validUtf8 p.2 = true :=
    canonical_frag_props F C cuts hF hC hcuts hlen
  have hpsprops : ∀ p ∈ ps, p.1 < 2 ^ 32 ∧ validUtf8 p.2 = true :=
    fun p hp => hprops p (hperm.mem_iff.1 hp)
  have hpsne : ps ≠ [] := by
    intro hnil
    have hlen2 := hperm.length_eq
    rw [hnil, enumFrags_length, markChunks_length] at hlen2
    exact hne (List.eq_nil_of_length_eq_zero hlen2.symm)
  refine ⟨?_, ?_, rfl⟩
  · rw [runQueries_frags_of_empty (txId C) suffix t0 (txId_valid C) ps hpsne hpsprops]
    have hnd : (ps.map Prod.fst).Nodup :=
      ((hperm.map Prod.fst).nodup_iff).2 (enumFrags_map_fst_nodup (markChunks cuts) 0)
    rw [foldl_cdStep_perm ps (enumFrags 0 (markChunks cuts)) hperm hnd [],
      foldl_cdStep_sorted _ [] (fun q hq => absurd hq (List.not_mem_nil q))
        (enumFrags_pairwise _ 0)]
    rw [List.nil_append]
  · exact sweepTick_single (txId C) _ t0 (t0 + 6000) wall (by unfold fiveSeconds; omega) _
      (assembleFile_canonical F C cuts wall hF hC hF0 hcuts hne hcne)

/-- Witness for `c1_round_trip`: the file `"f"`/`"a"` sent as two
fragments, delivered in reversed order. -/
theorem c1_round_trip_witness :
    (validUtf8 [102] = true ∧ validUtf8 [97] = true ∧ (∀ b ∈ ([102] : Bytes), b ≠ 0) ∧
     ([[90, 103, 65, 65], [89, 81, 61, 61]] : List Bytes).flatten = txPayload [102] [97] ∧
     [(1, ([89, 81, 61, 61] : Bytes)), (0, [90, 103, 65, 65, 45])].Perm
       (enumFrags 0 (markChunks [[90, 103, 65, 65], [89, 81, 61, 61]]))) ∧
    (runQueries [] ([(1, ([89, 81, 61, 61] : Bytes)), (0, [90, 103, 65, 65, 45])].map
        fun p => mkQuery (txId [97]) p [116]) 5 =
      some [(txId [97], (enumFrags 0 (markChunks [[90, 103, 65, 65], [89, 81, 61, 61]]), 5))] ∧
     sweepTick [(txId [97], (enumFrags 0 (markChunks [[90, 103, 65, 65], [89, 81, 61, 61]]), 5))]
        (5 + 6000) 7 =
      (.done [] [(txId [97], .ok ⟨[102], [97], md5hex [97], 7⟩)],
       [.lockAcquire, .removeEv (txId [97]), .assembleEv (txId [97]), .lockRelease]) ∧
     (md5hex [97]).take 4 = txId [97]) :=
  ⟨⟨by decide, by decide, by decide, by decide, by decide⟩,
   c1_round_trip [102] [97] [[90, 103, 65, 65], [89, 81, 61, 61]] [116]
     [(1, [89, 81, 61, 61]), (0, [90, 103, 65, 65, 45])] 5 7
     (by decide) (by decide) (by decide) (by decide) (by decide) (by decide) (by decide)
     (by decide)⟩

/-! ## Sweep-removal lemmas -/

theorem storeRemove_fst_sublist : ∀ st : Store, ∀ id : Bytes,
    ((storeRemove st id).2.map Prod.fst).Sublist (st.map Prod.fst) := by
  intro st id
  induction st with
  | nil => simp [storeRemove]
  | cons e rest ih =>
    obtain ⟨id2, v⟩ := e
    unfold storeRemove
    split_ifs with h
    · exact (List.sublist_cons_self _ _)
    · dsimp only
      rw [List.map_cons, List.map_cons]
      exact List.Sublist.cons₂ _ ih

theorem storeRemove_not_mem (st : Store) (id : Bytes) (hnd : (st.map Prod.fst).Nodup) :
    id ∉ (storeRemove st id).2.map Prod.fst := by
  induction st with
  | nil => simp [storeRemove]
  | cons e rest ih =>
    obtain ⟨id2, v⟩ := e
    rw [List.map_cons, List.nodup_cons] at hnd
    unfold storeRemove
    split_ifs with h
    · subst h
      exact hnd.1
    · dsimp only
      rw [List.map_cons]
      intro hmem
      rcases List.mem_cons.1 hmem with h2 | h2
      · exact h h2
      · exact ih hnd.2 h2

theorem sweepGo_not_mem (wall : Nat) (id : Bytes) : ∀ ids : List Bytes, ∀ st : Store,
    ∀ out : List (Bytes × AsmResult), ∀ tr : List Ev,
    id ∉ st.map Prod.fst →
    ∀ st2 out2 tr2, sweepGo wall ids st out tr = (.done st2 out2, tr2) →
    id ∉ st2.map Prod.fst := by
  intro ids
  induction ids with
  | nil =>
    intro st out tr hmem st2 out2 tr2 heq
    unfold sweepGo at heq
    injection heq with h1 h2
    injection h1 with h3 h4
    subst h3
    exact hmem
  | cons i rest ih =>
    intro st out tr hmem st2 out2 tr2 heq
    unfold sweepGo at heq
    cases hrem : storeRemove st i with
    | mk found st3 =>
      have hsub : id ∉ st3.map Prod.fst := by
        intro hmm
        have hs := storeRemove_fst_sublist st i
        rw [hrem] at hs
        exact hmem (hs.subset hmm)
      rw [hrem] at heq
      cases found with
      | none => exact ih st3 out tr hsub st2 out2 tr2 heq
      | some e =>
        obtain ⟨data, t⟩ := e
        dsimp only at heq
        cases hasm : assembleFile i data wall with
        | panic => rw [hasm] at heq; cases heq
        | ok f =>
          rw [hasm] at heq
          exact ih st3 _ _ hsub st2 out2 tr2 heq
        | err =>
          rw [hasm] at heq
          exact ih st3 _ _ hsub st2 out2 tr2 heq

theorem storeRemove_nodup (st : Store) (id : Bytes) (hnd : (st.map Prod.fst).Nodup) :
    ((storeRemove st id).2.map Prod.fst).Nodup :=
  List.Nodup.sublist (storeRemove_fst_sublist st id) hnd

theorem sweepGo_removes (wall : Nat) (id : Bytes) : ∀ ids : List Bytes, ∀ st : Store,
    ∀ out : List (Bytes × AsmResult), ∀ tr : List Ev,
    id ∈ ids → (st.map Prod.fst).Nodup →
    ∀ st2 out2 tr2, sweepGo wall ids st out tr = (.done st2 out2, tr2) →
    id ∉ st2.map Prod.fst := by
  intro ids
  induction ids with
  | nil => intro st out tr hmem; cases hmem
  | cons i rest ih =>
    intro st out tr hmem hnd st2 out2 tr2 heq
    unfold sweepGo at heq
    cases hrem : storeRemove st i with
    | mk found st3 =>
      have hnd3 : (st3.map Prod.fst).Nodup := by
        have := storeRemove_nodup st i hnd
        rw [hrem] at this
        exact this
      rw [hrem] at heq
      by_cases hid : id = i
      · subst hid
        have habs : id ∉ st3.map Prod.fst := by
          have := storeRemove_not_mem st id hnd
          rw [hrem] at this
          exact this
        cases found with
        | none => exact sweepGo_not_mem wall id rest st3 out tr habs st2 out2 tr2 heq
        | some e =>
          obtain ⟨data, t⟩ := e
          dsimp only at heq
          cases hasm : assembleFile id data wall with
          | panic => rw [hasm] at heq; cases heq
          | ok f =>
            rw [hasm] at heq
            exact sweepGo_not_mem wall id rest st3 _ _ habs st2 out2 tr2 heq
          | err =>
            rw [hasm] at heq
            exact sweepGo_not_mem wall id rest st3 _ _ habs st2 out2 tr2 heq
      · have hmem2 : id ∈ rest := by
          rcases List.mem_cons.1 hmem with h | h
          · exact absurd h hid
          · exact h
        cases found with
        | none => exact ih st3 out tr hmem2 hnd3 st2 out2 tr2 heq
        | some e =>
          obtain ⟨data, t⟩ := e
          dsimp only at heq
          cases hasm : assembleFile i data wall with
          | panic => rw [hasm] at heq; cases heq
          | ok f =>
            rw [hasm] at heq
            exact ih st3 _ _ hmem2 hnd3 st2 out2 tr2 heq
          | err =>
            rw [hasm] at heq
            exact ih st3 _ _ hmem2 hnd3 st2 out2 tr2 heq

theorem storeLookup_insertStore_self : ∀ st : Store, ∀ id : Bytes, ∀ v : ChunkedData × Nat,
    storeLookup (insertStore id v st) id = some v := by
  intro st id v
  induction st with
  | nil => unfold insertStore storeLookup; rw [if_pos rfl]
  | cons e rest ih =>
    obtain ⟨id2, v2⟩ := e
    unfold insertStore
    split_ifs with h1 h2
    · unfold storeLookup; rw [if_pos rfl]
    · unfold storeLookup; rw [if_pos rfl]
    · unfold storeLookup; rw [if_neg h2]; exact ih

theorem storeUpsert_refreshes (st : Store) (id : Bytes) (ctr : Nat) (frag : Bytes)
    (now : Nat) : ∃ m, storeLookup (storeUpsert st id ctr frag now) id = some (m, now) := by
  unfold storeUpsert
  cases storeLookup st id with
  | none => exact ⟨_, storeLookup_insertStore_self st id _⟩
  | some e =>
    obtain ⟨m, t⟩ := e
    exact ⟨_, storeLookup_insertStore_self st id _⟩

theorem drainList_mem_iff (st : Store) (now : Nat) (id : Bytes) (data : ChunkedData)
    (t : Nat) (hmem : (id, (data, t)) ∈ st) (hnd : (st.map Prod.fst).Nodup) :
    id ∈ drainList st now ↔ fiveSeconds < now - t := by
  unfold drainList
  constructor
  · intro h
    rcases List.mem_map.1 h with ⟨e, hef, hid⟩
    rcases List.mem_filter.1 hef with ⟨hest, hecond⟩
    have : e = (id, (data, t)) :=
      List.inj_on_of_nodup_map hnd hest hmem (by rw [hid])
    subst this
    simpa using hecond
  · intro h
    refine List.mem_map.2 ⟨(id, (data, t)), List.mem_filter.2 ⟨hmem, by simpa using h⟩, rfl⟩

/-- **C7**: A transfer is drained by the sweeper exactly when
`now - lastSeen` strictly exceeds the 5-second threshold; `lastSeen` is
refreshed (set to the current instant) by every received fragment; and a
completed sweep removes every drained transfer from the table. -/
theorem c7_idle_threshold (st : Store) (now wall : Nat) (id : Bytes) (data : ChunkedData)
    (t : Nat) (hmem : (id, (data, t)) ∈ st) (hnd : (st.map Prod.fst).Nodup) :
    (id ∈ drainList st now ↔ fiveSeconds < now - t) ∧
    (∀ st2 ctr frag now2, ∃ m,
      storeLookup (storeUpsert st2 id ctr frag now2) id = some (m, now2)) ∧
    (∀ st2 out tr, fiveSeconds < now - t →
      sweepTick st now wall = (.done st2 out, tr) → id ∉ st2.map Prod.fst) := by
  refine ⟨drainList_mem_iff st now id data t hmem hnd, ?_, ?_⟩
  · intro st2 ctr frag now2
    exact storeUpsert_refreshes st2 id ctr frag now2
  · intro st2 out tr hthresh heq
    have hdl : id ∈ drainList st now :=
      (drainList_mem_iff st now id data t hmem hnd).2 hthresh
    exact sweepGo_removes wall id (drainList st now) st [] [.lockAcquire] hdl hnd
      st2 out tr heq

/-- Witness for `c7_idle_threshold`: a transfer last seen at `t = 0` is
not drained at 4.5 s, is drained at 6 s, and the 6 s sweep removes it. -/
theorem c7_idle_threshold_witness :
    (([97] : Bytes) ∉ drainList [([97], ([(0, [120])], 0))] 4500) ∧
    (([97] : Bytes) ∈ drainList [([97], ([(0, [120])], 0))] 6000) ∧
    (([97] : Bytes) ∉ (([] : Store)).map Prod.fst) := by
  have h45 := c7_idle_threshold [([97], ([(0, [120])], 0))] 4500 3 [97] [(0, [120])] 0
    (by decide) (by decide)
  have h60 := c7_idle_threshold [([97], ([(0, [120])], 0))] 6000 3 [97] [(0, [120])] 0
    (by decide) (by decide)
  refine ⟨fun hmem => ?_, (h60.1).2 (by decide),
    h60.2.2 [] [([97], .err)]
      [.lockAcquire, .removeEv [97], .assembleEv [97], .lockRelease]
      (by decide) (by decide)⟩
  have := (h45.1).1 hmem
  unfold fiveSeconds at this
  omega

theorem insertStore_overwrite (id : Bytes) (v v2 : ChunkedData × Nat) :
    ∀ st : Store, insertStore id v (insertStore id v2 st) = insertStore id v st := by
  intro st
  induction st with
  | nil => simp [insertStore, bytesLt_irrefl]
  | cons e rest ih =>
    obtain ⟨id2, w⟩ := e
    simp only [insertStore]
    split_ifs <;> simp_all [insertStore, bytesLt_irrefl]

theorem storeUpsert_eq (s : Store) (id : Bytes) (k : Nat) (v : Bytes) (now : Nat) :
    storeUpsert s id k v now = insertStore id (insertCD k v (mOf s id), now) s := by
  unfold storeUpsert mOf
  cases storeLookup s id with
  | none => rfl
  | some e => obtain ⟨m, t⟩ := e; rfl

theorem mOf_insertStore_self (s : Store) (id : Bytes) (m : ChunkedData) (t : Nat) :
    mOf (insertStore id (m, t) s) id = m := by
  unfold mOf
  rw [storeLookup_insertStore_self]

theorem storeUpsert_comm (s : Store) (id : Bytes) (k1 k2 : Nat) (v1 v2 : Bytes) (now : Nat)
    (h : k1 ≠ k2) :
    storeUpsert (storeUpsert s id k1 v1 now) id k2 v2 now =
    storeUpsert (storeUpsert s id k2 v2 now) id k1 v1 now := by
  rw [storeUpsert_eq s id k1 v1 now, storeUpsert_eq s id k2 v2 now,
    storeUpsert_eq _ id k2 v2 now, storeUpsert_eq _ id k1 v1 now,
    mOf_insertStore_self, mOf_insertStore_self, insertStore_overwrite,
    insertStore_overwrite, insertCD_comm k2 k1 v2 v1 (Ne.symm h)]

theorem storeUpsert_lww (s : Store) (id : Bytes) (k : Nat) (v1 v2 : Bytes) (now : Nat) :
    storeUpsert (storeUpsert s id k v1 now) id k v2 now = storeUpsert s id k v2 now := by
  rw [storeUpsert_eq s id k v1 now, storeUpsert_eq _ id k v2 now,
    mOf_insertStore_self, insertStore_overwrite, insertCD_overwrite,
    storeUpsert_eq s id k v2 now]

/-- **C8**: Arrival-order independence with last-write-wins.  Delivering
a fragment set with pairwise-distinct sequence numbers to the store in
any permutation yields the same table and hence the same concatenated
payload at assembly (concatenation is by ascending sequence number, not
arrival order); and a later fragment carrying an already-used sequence
number replaces the earlier fragment for that number. -/
theorem c8_order_independence (st : Store) (id : Bytes) (now : Nat)
    (l1 l2 : List (Nat × Bytes)) (hperm : l1.Perm l2)
    (hnd : (l1.map Prod.fst).Nodup) :
    (l1.foldl (fun s p => storeUpsert s id p.1 p.2 now) st =
      l2.foldl (fun s p => storeUpsert s id p.1 p.2 now) st) ∧
    (payloadOf (l1.foldl (fun s p => storeUpsert s id p.1 p.2 now) st) id =
      payloadOf (l2.foldl (fun s p => storeUpsert s id p.1 p.2 now) st) id) ∧
    (∀ s : Store, ∀ k : Nat, ∀ v1 v2 : Bytes,
      storeUpsert (storeUpsert s id k v1 now) id k v2 now = storeUpsert s id k v2 now) := by
  have hfold : l1.foldl (fun s p => storeUpsert s id p.1 p.2 now) st =
      l2.foldl (fun s p => storeUpsert s id p.1 p.2 now) st := by
    refine hperm.foldl_eq' ?_ st
    intro x hx y hy z
    by_cases hxy : x = y
    · subst hxy; rfl
    · have hk : x.1 ≠ y.1 := by
        intro hfst
        exact hxy (List.inj_on_of_nodup_map hnd hx hy hfst)
      exact storeUpsert_comm z id x.1 y.1 x.2 y.2 now hk
  exact ⟨hfold, by rw [hfold], fun s k v1 v2 => storeUpsert_lww s id k v1 v2 now⟩

/-- Witness for `c8_order_independence`: two fragments delivered in both
orders, and an overwrite of sequence number 0. -/
theorem c8_order_independence_witness :
    ([((0 : Nat), ([97] : Bytes)), (1, [98])].Perm [(1, [98]), (0, [97])]) ∧
    ([((0 : Nat), ([97] : Bytes)), (1, [98])].foldl
        (fun s p => storeUpsert s [105] p.1 p.2 9) [] =
      [((1 : Nat), ([98] : Bytes)), (0, [97])].foldl
        (fun s p => storeUpsert s [105] p.1 p.2 9) []) ∧
    (storeUpsert (storeUpsert [] [105] 0 [97] 9) [105] 0 [99] 9 =
      storeUpsert [] [105] 0 [99] 9) := by
  have h := c8_order_independence [] [105] 9 [(0, [97]), (1, [98])] [(1, [98]), (0, [97])]
    (by decide) (by decide)
  exact ⟨by decide, h.1, h.2.2 [] 0 [97] [99]⟩

/-! ## `parse_name` contract -/

/-- **C9**: Per-request decode-failure atomicity.  When the id label or
the sequence-number label of a data-bearing query fails to decode,
`parse_name` returns an `Err` before the transfer table is touched (the
fallible id and counter decodes precede the lock), and the responder
answers `ServFail` with the store unchanged instead of success. -/
theorem c9_decode_failure_atomicity (st : Store) (labels : List Bytes) (now : Nat)
    (l0 l1 : Bytes) (ls2 : List Bytes)
    (hshape : labels.reverse.drop 1 = l0 :: l1 :: ls2)
    (hbad : validUtf8 l0 = false ∨ (validUtf8 l0 = true ∧ parseCtr l1 = none)) :
    parseName st labels now =
      .err (if validUtf8 l0 then ParseErr.malformedSeq else ParseErr.malformedId) ∧
    respond st (.data labels) now = .reply .servFail st := by
  have hparse : parseName st labels now =
      .err (if validUtf8 l0 then ParseErr.malformedSeq else ParseErr.malformedId) := by
    unfold parseName
    rw [hshape]
    dsimp only
    rcases hbad with h | ⟨h, hc⟩
    · rw [h]
      simp
    · rw [h, hc]
      simp
  refine ⟨hparse, ?_⟩
  unfold respond
  dsimp only
  rw [hparse]

/-- Witness for `c9_decode_failure_atomicity`: a query whose id label is
the invalid UTF-8 byte `0xFF` gets `ServFail` and leaves the store as
it was. -/
theorem c9_decode_failure_atomicity_witness :
    parseName [([104], ([(0, [120])], 2))] [[48], [255], [116]] 7 = .err .malformedId ∧
    respond [([104], ([(0, [120])], 2))] (.data [[48], [255], [116]]) 7 =
      .reply .servFail [([104], ([(0, [120])], 2))] := by
  have h := c9_decode_failure_atomicity [([104], ([(0, [120])], 2))] [[48], [255], [116]] 7
    [255] [48] [] (by decide) (Or.inl (by decide))
  exact ⟨by rw [h.1]; decide, h.2⟩

/-- **C10** (amended): `parse_name` panics out of bounds when no label
remains after reversing and dropping one, and when exactly one label
remains that is valid UTF-8 (`labels[1]`); but when the single remaining
label is invalid UTF-8 the id decode fails first, so `parse_name`
returns the id decode error rather than panicking. -/
theorem c10_short_names (st : Store) (labels : List Bytes) (now : Nat) :
    (labels.reverse.drop 1 = [] → parseName st labels now = .panic) ∧
    (∀ l0 : Bytes, labels.reverse.drop 1 = [l0] →
      (validUtf8 l0 = true → parseName st labels now = .panic) ∧
      (validUtf8 l0 = false → parseName st labels now = .err .malformedId)) := by
  constructor
  · intro h
    unfold parseName
    rw [h]
  · intro l0 h
    constructor
    · intro hv
      unfold parseName
      rw [h]
      dsimp only
      rw [hv]
      simp
    · intro hv
      unfold parseName
      rw [h]
      dsimp only
      rw [hv]
      simp

/-- Witness for `c10_short_names`: the empty remainder and the
one-valid-label remainder both panic. -/
theorem c10_short_names_witness :
    parseName [] [[116]] 3 = .panic ∧ parseName [] [[97], [116]] 3 = .panic := by
  have h1 := (c10_short_names [] [[116]] 3).1 (by decide)
  have h2 := ((c10_short_names [] [[97], [116]] 3).2 [97] (by decide)).1 (by decide)
  exact ⟨h1, h2⟩

/-- Counterexample to C10 as stated: a name with exactly one (invalid
UTF-8) label remaining does not panic — it returns the id decode
error. -/
theorem c10_counterexample :
    parseName [] [[255], [116]] 0 = .err .malformedId ∧
    parseName [] [[255], [116]] 0 ≠ .panic := by decide

/-- **C4** (amended): Label decoding.  After reversing the label
sequence and dropping one label: label 0 is the UTF-8 transfer id,
failing with the id decode error when invalid; label 1 parses as a
non-negative integer, failing with the sequence-number decode error on
parse failure; labels 2 onward are UTF-8-decoded, reversed back to
original order and concatenated into the fragment — but an invalid
UTF-8 fragment label panics (`.unwrap()`), it does not produce a
fragment decode error. -/
theorem c4_label_decoding (st : Store) (labels : List Bytes) (now : Nat)
    (l0 l1 : Bytes) (ls2 : List Bytes)
    (hshape : labels.reverse.drop 1 = l0 :: l1 :: ls2) :
    (validUtf8 l0 = false → parseName st labels now = .err .malformedId) ∧
    (validUtf8 l0 = true → parseCtr l1 = none →
      parseName st labels now = .err .malformedSeq) ∧
    (∀ ctr : Nat, validUtf8 l0 = true → parseCtr l1 = some ctr →
      (ls2.all (fun l => validUtf8 l) = true →
        parseName st labels now = .ok (storeUpsert st l0 ctr ls2.reverse.flatten now)) ∧
      (ls2.all (fun l => validUtf8 l) = false → parseName st labels now = .panic)) := by
  refine ⟨?_, ?_, ?_⟩
  · intro hv
    unfold parseName
    rw [hshape]
    dsimp only
    rw [hv]
    simp
  · intro hv hc
    unfold parseName
    rw [hshape]
    dsimp only
    rw [hv, hc]
    simp
  · intro ctr hv hc
    constructor
    · intro hall
      unfold parseName
      rw [hshape]
      dsimp only
      rw [hv, hc]
      simp only [if_pos rfl]
      rw [hall]
      simp
    · intro hall
      unfold parseName
      rw [hshape]
      dsimp only
      rw [hv, hc]
      simp only [if_pos rfl]
      rw [hall]
      simp

/-- Witness for `c4_label_decoding`: a well-formed query upserts its
fragment; a non-numeric sequence label yields the sequence decode
error. -/
theorem c4_label_decoding_witness :
    parseName [] [[97], [49], [105, 100, 97, 98], [116]] 0 =
      .ok (storeUpsert [] [105, 100, 97, 98] 1 [97] 0) ∧
    parseName [] [[97], [120], [105, 100, 97, 98], [116]] 0 = .err .malformedSeq := by
  have h1 := ((c4_label_decoding [] [[97], [49], [105, 100, 97, 98], [116]] 0
    [105, 100, 97, 98] [49] [[97]] (by decide)).2.2 1 (by decide) (by decide)).1 (by decide)
  have h2 := (c4_label_decoding [] [[97], [120], [105, 100, 97, 98], [116]] 0
    [105, 100, 97, 98] [120] [[97]] (by decide)).2.1 (by decide) (by decide)
  exact ⟨by rw [h1]; decide, h2⟩

/-- Counterexample to C4 as stated: a query whose fragment label is the
invalid UTF-8 byte `0xFF` makes `parse_name` panic (the `unwrap`), not
return a decode error. -/
theorem c4_counterexample :
    parseName [] [[255], [48], [97, 98, 99, 100], [116]] 0 = .panic ∧
    parseName [] [[255], [48], [97, 98, 99, 100], [116]] 0 ≠ .err .malformedId ∧
    parseName [] [[255], [48], [97, 98, 99, 100], [116]] 0 ≠ .err .malformedSeq := by
  decide

/-! ## Contiguity -/

theorem strictAsc_getElem_ge (ks : List Nat) (h : ks.Pairwise (· < ·)) :
    ∀ i, ∀ hi : i < ks.length, i ≤ ks[i] := by
  have hmono := List.pairwise_iff_getElem.1 h
  intro i
  induction i with
  | zero => intro hi; omega
  | succ j ihj =>
    intro hi
    have hj : j < ks.length := by omega
    have hlt := hmono j (j + 1) hj hi (by omega)
    have := ihj hj
    omega

theorem strictAsc_getElem_add (ks : List Nat) (h : ks.Pairwise (· < ·)) :
    ∀ d i, ∀ hd : i + d < ks.length, ks[i] + d ≤ ks[i + d] := by
  have hmono := List.pairwise_iff_getElem.1 h
  intro d
  induction d with
  | zero => intro i hd; simp
  | succ e ihe =>
    intro i hd
    have he : i + e < ks.length := by omega
    have h1 := ihe i he
    have h2 := hmono (i + e) (i + (e + 1)) he hd (by omega)
    omega

/-- A strictly ascending key list whose last key is `length - 1` is
exactly `{0, 1, …, length - 1}`. -/
theorem strictAsc_last_eq_range (ks : List Nat) (h : ks.Pairwise (· < ·))
    (hlast : ks.getLast? = some (ks.length - 1)) : ks = List.range ks.length := by
  have hne : ks ≠ [] := by
    intro hcontra
    rw [hcontra] at hlast
    cases hlast
  have hlen : 0 < ks.length := List.length_pos.2 hne
  rw [List.getLast?_eq_getElem?] at hlast
  have hget : ks[ks.length - 1] = ks.length - 1 := by
    have := List.getElem?_eq_getElem (l := ks) (n := ks.length - 1) (by omega)
    rw [this] at hlast
    injection hlast
  refine List.ext_getElem (by simp) ?_
  intro n h1 h2
  have hge := strictAsc_getElem_ge ks h n h1
  have hle : ks[n] + (ks.length - 1 - n) ≤ ks.length - 1 := by
    have hidx : n + (ks.length - 1 - n) = ks.length - 1 := by omega
    have h3 := strictAsc_getElem_add ks h (ks.length - 1 - n) n (by omega)
    simp only [hidx] at h3
    omega
  simp only [List.getElem_range]
  omega

/-- One sweep step on a single stale transfer whose assembly panics:
the sweeper thread dies. -/
theorem sweepTick_single_panic (id : Bytes) (data : ChunkedData) (t0 now wall : Nat)
    (hnow : fiveSeconds < now - t0) (hres : assembleFile id data wall = .panic) :
    sweepTick [(id, (data, t0))] now wall =
      (.panicked, [.lockAcquire, .removeEv id, .assembleEv id, .lockRelease]) := by
  unfold sweepTick drainList
  have hcond : decide (fiveSeconds < now - t0) = true := decide_eq_true hnow
  simp only [List.filter, hcond, List.map_cons, List.map_nil]
  unfold sweepGo storeRemove
  rw [if_pos rfl]
  dsimp only
  rw [hres]
  rfl

/-- **C5** (amended): A drained transfer whose sequence-number set is
not exactly `{0, 1, …, N-1}` makes `assemble_file` panic on the
contiguity assertion — there is no `IncompleteTransfer` error value —
so no `File` is produced, and the sweep that drains such a transfer
dies with the panic (killing the sweeper thread) instead of failing
only that transfer. -/
theorem c5_contiguity (id : Bytes) (data : ChunkedData) (wall : Nat)
    (hsorted : data.Pairwise (fun p q => p.1 < q.1))
    (hkeys : data.map Prod.fst ≠ List.range data.length) :
    assembleFile id data wall = .panic ∧
    (∀ t0 now, fiveSeconds < now - t0 →
      sweepTick [(id, (data, t0))] now wall =
        (.panicked, [.lockAcquire, .removeEv id, .assembleEv id, .lockRelease])) := by
  have hpanic : assembleFile id data wall = .panic := by
    unfold assembleFile
    cases hlast : (data.map Prod.fst).getLast? with
    | none => rfl
    | some maxKey =>
      dsimp only
      rw [if_pos ?_]
      intro heq
      apply hkeys
      have hpw : (data.map Prod.fst).Pairwise (· < ·) :=
        List.Pairwise.map Prod.fst (fun _ _ hab => hab) hsorted
      have hlen : (data.map Prod.fst).length = data.length := List.length_map data Prod.fst
      have := strictAsc_last_eq_range (data.map Prod.fst) hpw
        (by rw [hlast, heq, hlen])
      rw [this, hlen]
  exact ⟨hpanic, fun t0 now hnow => sweepTick_single_panic id data t0 now wall hnow hpanic⟩

/-- Witness for `c5_contiguity`: the fragment set `{0, 2}` (gap at 1). -/
theorem c5_contiguity_witness :
    assembleFile [97, 98] [(0, [97]), (2, [98])] 0 = .panic ∧
    sweepTick [([97, 98], ([(0, [97]), (2, [98])], 0))] 6000 0 =
      (.panicked, [.lockAcquire, .removeEv [97, 98], .assembleEv [97, 98], .lockRelease]) := by
  have h := c5_contiguity [97, 98] [(0, [97]), (2, [98])] 0 (by decide) (by decide)
  exact ⟨h.1, h.2 0 6000 (by decide)⟩

/-- Counterexample to C5 as stated: the gap `{0, 2}` does not produce a
recoverable `IncompleteTransfer`-style error — `assemble_file` panics
(the outcome is not the `Err` case). -/
theorem c5_counterexample :
    assembleFile [97, 98] [(0, [97]), (2, [98])] 0 = .panic ∧
    assembleFile [97, 98] [(0, [97]), (2, [98])] 0 ≠ .err := by decide

/-- **C6** (amended): Checksum gate.  For a drained transfer whose
payload passes every earlier stage (contiguous keys, valid final byte,
base64 decode, three-part envelope, empty content type), the code
asserts that the id equals the first 4 characters of the lowercase hex
checksum of the decoded content's bytes: on mismatch `assemble_file`
panics — there is no `ChecksumMismatch` error value — and no file is
emitted; on equality the produced `File` carries the full lowercase hex
digest. -/
theorem c6_checksum (id : Bytes) (data : ChunkedData) (wall : Nat)
    (maxKey lastB : Nat) (env p0 p1 p2 : Bytes)
    (hkeys : (data.map Prod.fst).getLast? = some maxKey)
    (hcontig : maxKey = data.length - 1)
    (hlast : ((data.map Prod.snd).flatten).getLast? = some lastB)
    (hlb1 : ¬(128 ≤ lastB ∧ lastB < 192)) (hlb2 : lastB ≠ 45)
    (hdec : b64decode (normalize ((data.map Prod.snd).flatten)) = some env)
    (hsplit : splitn3 env = [p0, p1, p2]) (htype : utf8Lossy p1 = []) :
    (id ≠ (md5hex (utf8Lossy p2)).take 4 → assembleFile id data wall = .panic) ∧
    (id = (md5hex (utf8Lossy p2)).take 4 →
      assembleFile id data wall =
        .ok ⟨utf8Lossy p0, utf8Lossy p2, md5hex (utf8Lossy p2), wall⟩) := by
  unfold assembleFile
  rw [hkeys]
  dsimp only
  rw [if_neg (by omega), hlast]
  dsimp only
  rw [if_neg (by simpa using hlb1), if_neg hlb2, hdec]
  dsimp only
  rw [hsplit]
  dsimp only
  rw [if_neg (by rw [htype]; simp)]
  constructor
  · intro hne
    rw [if_pos hne]
  · intro heq
    rw [if_neg (by rw [heq]; simp)]

set_option maxRecDepth 100000 in
/-- Witness for `c6_checksum`: the transfer `"ZgAAYQ=="` (file `"f"`
with content `"a"`) assembled under its true id `"0cc1"` produces the
`File` with the full digest. -/
theorem c6_checksum_witness :
    assembleFile [48, 99, 99, 49] [(0, [90, 103, 65, 65, 89, 81, 61, 61])] 7 =
      .ok ⟨[102], [97], md5hex [97], 7⟩ := by
  have h := (c6_checksum [48, 99, 99, 49] [(0, [90, 103, 65, 65, 89, 81, 61, 61])] 7
    0 61 [102, 0, 0, 97] [102] [] [97]
    (by decide) (by decide) (by decide) (by decide) (by decide) (by decide) (by decide)
    (by decide)).2 (by decide)
  rw [h]
  decide

set_option maxRecDepth 100000 in
/-- Counterexample to C6 as stated: the same fully decodable transfer
under the wrong id `"zzzz"` panics — the outcome is not the recoverable
`Err` case, so no `ChecksumMismatch` error is returned. -/
theorem c6_counterexample :
    assembleFile [122, 122, 122, 122] [(0, [90, 103, 65, 65, 89, 81, 61, 61])] 0 = .panic ∧
    assembleFile [122, 122, 122, 122] [(0, [90, 103, 65, 65, 89, 81, 61, 61])] 0 ≠ .err := by
  decide

/-! ## Lock discipline of the sweep -/

theorem sweepGo_trace_shape (wall : Nat) : ∀ ids : List Bytes, ∀ st : Store,
    ∀ out : List (Bytes × AsmResult), ∀ tr : List Ev, ∃ mid : List Ev,
    (sweepGo wall ids st out tr).2 = tr ++ mid ++ [Ev.lockRelease] ∧
    ∀ e ∈ mid, (∃ i, e = Ev.removeEv i) ∨ ∃ i, e = Ev.assembleEv i := by
  intro ids
  induction ids with
  | nil =>
    intro st out tr
    refine ⟨[], by simp [sweepGo], by simp⟩
  | cons i rest ih =>
    intro st out tr
    unfold sweepGo
    cases hrem : storeRemove st i with
    | mk found st2 =>
      cases found with
      | none => exact ih st2 out tr
      | some e =>
        obtain ⟨data, t⟩ := e
        dsimp only
        cases hasm : assembleFile i data wall with
        | panic =>
          refine ⟨[Ev.removeEv i, Ev.assembleEv i], by simp, ?_⟩
          intro e he
          rcases List.mem_cons.1 he with h | h
          · exact Or.inl ⟨i, h⟩
          · simp only [List.mem_singleton] at h
            exact Or.inr ⟨i, h⟩
        | ok f =>
          obtain ⟨mid, hmid, hmem⟩ := ih st2 (out ++ [(i, .ok f)])
            (tr ++ [Ev.removeEv i, Ev.assembleEv i])
          refine ⟨[Ev.removeEv i, Ev.assembleEv i] ++ mid, ?_, ?_⟩
          · rw [hmid]; simp [List.append_assoc]
          · intro e he
            rcases List.mem_append.1 he with h | h
            · rcases List.mem_cons.1 h with h2 | h2
              · exact Or.inl ⟨i, h2⟩
              · simp only [List.mem_singleton] at h2
                exact Or.inr ⟨i, h2⟩
            · exact hmem e h
        | err =>
          obtain ⟨mid, hmid, hmem⟩ := ih st2 (out ++ [(i, .err)])
            (tr ++ [Ev.removeEv i, Ev.assembleEv i])
          refine ⟨[Ev.removeEv i, Ev.assembleEv i] ++ mid, ?_, ?_⟩
          · rw [hmid]; simp [List.append_assoc]
          · intro e he
            rcases List.mem_append.1 he with h | h
            · rcases List.mem_cons.1 h with h2 | h2
              · exact Or.inl ⟨i, h2⟩
              · simp only [List.mem_singleton] at h2
                exact Or.inr ⟨i, h2⟩
            · exact hmem e h

/-- **C3** (amended): Lock discipline of the idle sweep.  A sweep's
event trace is one lock acquisition, then only removals and assemblies,
then one release: every drained transfer is removed *and assembled*
while the store's mutex is held — the code's `MutexGuard` lives to the
end of the loop body, so the lock is *not* released before assembly. -/
theorem c3_lock_held_during_assembly (st : Store) (now wall : Nat) :
    ∃ mid : List Ev,
      (sweepTick st now wall).2 = Ev.lockAcquire :: (mid ++ [Ev.lockRelease]) ∧
      (∀ e ∈ mid, (∃ i, e = Ev.removeEv i) ∨ ∃ i, e = Ev.assembleEv i) ∧
      (∀ j, ((sweepTick st now wall).2)[j]? = some Ev.lockRelease →
        j = mid.length + 1) := by
  obtain ⟨mid, hmid, hmem⟩ :=
    sweepGo_trace_shape wall (drainList st now) st [] [Ev.lockAcquire]
  have hshape : (sweepTick st now wall).2 = Ev.lockAcquire :: (mid ++ [Ev.lockRelease]) := by
    unfold sweepTick
    rw [hmid]
    rfl
  refine ⟨mid, hshape, hmem, ?_⟩
  intro j hj
  rw [hshape] at hj
  by_contra hne
  cases j with
  | zero => simp at hj
  | succ k =>
    rw [List.getElem?_cons_succ] at hj
    have hk : k < mid.length := by
      by_contra hk2
      have hlen : k < (mid ++ [Ev.lockRelease]).length := by
        by_contra h3
        rw [List.getElem?_eq_none (by omega)] at hj
        cases hj
      simp only [List.length_append, List.length_singleton] at hlen
      have : k = mid.length := by omega
      omega
    rw [List.getElem?_append_left hk, List.getElem?_eq_getElem hk] at hj
    injection hj with hj2
    rcases hmem mid[k] (List.getElem_mem hk) with ⟨i, h⟩ | ⟨i, h⟩ <;> rw [h] at hj2 <;>
      cases hj2

/-- Counterexample to C3 as stated: in the sweep of one stale transfer
the release event comes strictly after the assembly event, so the lock
is not released before the drained transfer is assembled. -/
theorem c3_counterexample :
    (sweepTick [([97], ([(0, [120])], 0))] 6000 3).2 =
      [Ev.lockAcquire, Ev.removeEv [97], Ev.assembleEv [97], Ev.lockRelease] ∧
    (sweepTick [([97], ([(0, [120])], 0))] 6000 3).2.indexOf (Ev.assembleEv [97]) <
      (sweepTick [([97], ([(0, [120])], 0))] 6000 3).2.indexOf Ev.lockRelease := by
  decide

/-! ## Error containment -/

/-- **C2** (amended): Which malformed inputs are non-fatal.  A
data-bearing query whose id label is invalid UTF-8 or whose
sequence-number label fails to parse is answered with `ServFail`, the
process keeps running and the store — hence every other in-flight
transfer — is untouched; and a drained transfer that passes the
assertions but fails base64 decoding yields the recoverable `Err`, not
a panic.  (The remaining malformed-input paths — an unrecognised or
`"help"` TXT query, an invalid-UTF-8 fragment label, a gap, a missing
terminator, a non-empty content type, a checksum mismatch — panic, as
the counterexample records.) -/
theorem c2_error_containment :
    (∀ (st : Store) (labels : List Bytes) (now : Nat) (l0 l1 : Bytes) (ls2 : List Bytes),
      labels.reverse.drop 1 = l0 :: l1 :: ls2 →
      (validUtf8 l0 = false ∨ (validUtf8 l0 = true ∧ parseCtr l1 = none)) →
      respond st (.data labels) now = .reply .servFail st) ∧
    (∀ (id : Bytes) (data : ChunkedData) (wall maxKey lastB : Nat),
      (data.map Prod.fst).getLast? = some maxKey → maxKey = data.length - 1 →
      ((data.map Prod.snd).flatten).getLast? = some lastB →
      ¬(128 ≤ lastB ∧ lastB < 192) → lastB ≠ 45 →
      b64decode (normalize ((data.map Prod.snd).flatten)) = none →
      assembleFile id data wall = .err) := by
  constructor
  · intro st labels now l0 l1 ls2 hshape hbad
    have hparse : ∃ e : ParseErr, parseName st labels now = .err e := by
      unfold parseName
      rw [hshape]
      dsimp only
      rcases hbad with h | ⟨h, hc⟩
      · rw [h]
        exact ⟨.malformedId, by simp⟩
      · rw [h, hc]
        exact ⟨.malformedSeq, by simp⟩
    obtain ⟨e, he⟩ := hparse
    unfold respond
    dsimp only
    rw [he]
  · intro id data wall maxKey lastB hkeys hcontig hlast hlb1 hlb2 hdec
    unfold assembleFile
    rw [hkeys]
    dsimp only
    rw [if_neg (by omega), hlast]
    dsimp only
    rw [if_neg (by simpa using hlb1), if_neg hlb2, hdec]

/-- Witness for `c2_error_containment`: a non-numeric sequence label is
answered `ServFail` with the store unchanged, and a one-byte payload
(`"x"`) fails base64 decoding with the recoverable `Err`. -/
theorem c2_error_containment_witness :
    respond [([104], ([(0, [121])], 2))] (.data [[49], [120], [105], [116]]) 8 =
      .reply .servFail [([104], ([(0, [121])], 2))] ∧
    assembleFile [104] [(0, [120])] 0 = .err := by
  have h := c2_error_containment
  exact ⟨h.1 [([104], ([(0, [121])], 2))] [[49], [120], [105], [116]] 8
      [105] [120] [[49]] (by decide) (Or.inr ⟨by decide, by decide⟩),
    h.2 [104] [(0, [120])] 0 0 120 (by decide) (by decide) (by decide) (by decide)
      (by decide) (by decide)⟩

/-- Counterexample to C2 as stated: a TXT query with first label
`"help"` reaches `todo!()` and panics the responder thread (the
process's main thread), and a checksum-style assembly failure panics
the sweeper — malformed input does abort. -/
theorem c2_counterexample :
    respond [] (.txt [[104, 101, 108, 112]]) 0 = .panic ∧
    assembleFile [97, 98] [(0, [97]), (2, [98])] 1 = .panic := by decide

end Dnssteal
